import Mathlib

/-!
Artifact broadcasting (`go-revolver-p2p/broadcast.go`).

A shallow embedding of `client.broadcast` and the properties of its chunk plan,
its per-peer send pipeline, its exclude list and its clean-up.

* Sizes are unsigned `w`-bit machine integers, modelled as natural numbers with
  explicit reduction modulo `2 ^ w`; `int(...)` is a conversion to a signed
  `iw`-bit integer.  Both widths are parameters: the declarations of
  `Artifact.Size` and `config.ArtifactChunkSize` are not part of the file.
  The largest slice length that `make` allocates is a parameter `maxLen`.
* A pending result (`chan error`) carries exactly one value and is received from
  exactly once, so it is modelled by the value it resolves to, together with a
  flag recording whether the send function called `util.WriteWithTimeout`.
* The outcome of a write to peer `p` of chunk `i` is given by an oracle
  `WriteWithTimeout p i` (`none` is the `nil` error).
* The membership of the stream store at the fan-out call of chunk `i` is
  `store i`; it may differ from call to call.
-/

set_option autoImplicit false

namespace Revolver

/-! ## Machine arithmetic -/

/-- Addition of unsigned `w`-bit integers: the sum wraps around. -/
def uadd (w a b : Nat) : Nat := (a + b) % 2 ^ w

/-- Subtraction of unsigned `w`-bit integers: the difference wraps around. -/
def usub (w a b : Nat) : Nat := (a + (2 ^ w - b % 2 ^ w)) % 2 ^ w

/-- Division of unsigned integers; dividing by zero is a run-time panic (`none`). -/
def udiv (a b : Nat) : Option Nat := if b = 0 then none else some (a / b)

/-- The conversion `int(x)` of an unsigned value to a signed `iw`-bit integer:
the value is truncated to `iw` bits and read in two's complement. -/
def toInt (iw x : Nat) : Int :=
  if x % 2 ^ iw < 2 ^ (iw - 1) then ((x % 2 ^ iw : Nat) : Int)
  else ((x % 2 ^ iw : Nat) : Int) - ((2 ^ iw : Nat) : Int)

/-- The chunk count of `broadcast`:
`chunks := int((object.Size()+ArtifactChunkSize-1)/ArtifactChunkSize + 1)`,
evaluated left to right in unsigned `w`-bit arithmetic. -/
def chunks (w iw size chunkSize : Nat) : Option Int :=
  (udiv (usub w (uadd w size chunkSize) 1) chunkSize).map
    (fun q => toInt iw (uadd w q 1))

/-- The chunk plan in the words of the specification: the mathematical ceiling
of `a / b` for `0 < b` (the data chunk count `ceil(Size / ChunkSize)`). -/
def ceilDiv (a b : Nat) : Nat := if a % b = 0 then a / b else a / b + 1

/-! ## The artifact's reader -/

/-- `io.ReadFull(object, data)` with `len(data) = n`, on a reader that can still
deliver `stream` before it ends or fails: the buffer is filled and the reader
advances, or the read is an error (`none`). -/
def ReadFull {B : Type} (stream : List B) (n : Nat) : Option (List B × List B) :=
  if n ≤ stream.length then some (stream.take n, stream.drop n) else none

/-! ## Pending results and result sets -/

/-- A resolved pending result of one peer for one chunk: `result` is the error
delivered on the channel (`none` for `nil`), `wrote` records whether the send
function called `util.WriteWithTimeout`. -/
structure Pending (E : Type) where
  wrote : Bool
  result : Option E
deriving DecidableEq, Repr

/-- The map lookup `previous[peerId]` on a result set kept as an association
list. -/
def lookup {P E : Type} [DecidableEq P] (p : P) : List (P × Pending E) → Option (Pending E)
  | [] => none
  | (q, s) :: rest => if q = p then some s else lookup p rest

/-- Modelled from the spec: `StreamStore.Apply(sendFn, excludeSet)` (the stream
store is not part of the file).  For every peer currently known to the store and
not in the exclude list it invokes the send function and resolves that peer's
pending result with what the function returns; the returned map has one entry
for each such peer. -/
def Apply {P E : Type} [DecidableEq P] (members : List P) (sendFn : P → Pending E)
    (exclude : List P) : List (P × Pending E) :=
  (members.dedup.filter (fun p => decide (p ∉ exclude))).map (fun p => (p, sendFn p))

/-- The send function of chunk 0 (lines 75-81): write the metadata. -/
def sendMetadata {P E : Type} (WriteWithTimeout : P → Nat → Option E) (p : P) : Pending E :=
  ⟨true, WriteWithTimeout p 0⟩

/-- The send function of data chunk `i` (lines 108-122): a peer with a pending result in
`previous` waits for it, passes an error on without writing, and writes the
chunk otherwise; a peer without one returns `nil` without writing. -/
def sendChunk {P E : Type} [DecidableEq P] (WriteWithTimeout : P → Nat → Option E) (i : Nat)
    (previous : List (P × Pending E)) (p : P) : Pending E :=
  match lookup p previous with
  | some s =>
    match s.result with
    | some err => ⟨false, some err⟩
    | none => ⟨true, WriteWithTimeout p i⟩
  | none => ⟨false, none⟩

/-- One invocation of the fan-out primitive. -/
structure ApplyCall (P B E : Type) where
  index : Nat
  data : List B
  exclude : List P
  results : List (P × Pending E)

/-- The terminal calls on an artifact. -/
inductive Terminal where
  | Close
  | Disconnect
deriving DecidableEq, Repr

/-- What the chunk loop did. -/
structure LoopResult (P B E : Type) where
  calls : List (ApplyCall P B E)
  leftover : Nat
  failedAt : Option Nat

/-- The loop `for i := 1; i < chunks; i++` (lines 87-126), with `n` iterations
still to run from index `i`: the buffer of `min(leftover, chunkSize)` bytes is
allocated and `leftover` updated, the buffer is read in full or the loop is
left on the read error, and the chunk is fanned out with the result set of the
previous chunk. -/
def loop {P B E : Type} [DecidableEq P] (chunkSize : Nat) (exclude : List P)
    (store : Nat → List P) (WriteWithTimeout : P → Nat → Option E) :
    Nat → Nat → Nat → List B → List (P × Pending E) → LoopResult P B E
  | 0, _, leftover, _, _ => ⟨[], leftover, none⟩
  | n + 1, i, leftover, stream, previous =>
    let len := if leftover < chunkSize then leftover else chunkSize
    let leftover1 := if leftover < chunkSize then 0 else leftover - chunkSize
    match ReadFull stream len with
    | none => ⟨[], leftover1, some i⟩
    | some (data, stream1) =>
      let r := Apply (store i) (sendChunk WriteWithTimeout i previous) exclude
      let rest := loop chunkSize exclude store WriteWithTimeout n (i + 1) leftover1 stream1 r
      ⟨⟨i, data, exclude, r⟩ :: rest.calls, rest.leftover, rest.failedAt⟩

/-- The exclude list (lines 63-70): the witnesses of the checksum when the
cache has an entry, sorted by `sort.Sort`; a sorted list is determined by its
elements, so any sorting function stands for it. -/
def excludeList {P : Type} [LinearOrder P] (witnesses : Option (List P)) : List P :=
  List.insertionSort (fun a b => a ≤ b)
    (match witnesses with
     | some ws => ws
     | none => [])

/-- The clean-up (lines 129-138): one `Remove` for every entry of the result set
whose pending result is an error. -/
def cleanup {P E : Type} (final : List (P × Pending E)) : List P :=
  (final.filter (fun e => e.2.result.isSome)).map Prod.fst

/-- What one invocation of `broadcast` did. -/
structure Outcome (P B E : Type) where
  /-- The invocations of `Apply`, in order. -/
  calls : List (ApplyCall P B E)
  /-- The entries of the slice `errors` that were assigned, by index. -/
  errors : List (List (P × Pending E))
  /-- The terminal calls made on the artifact. -/
  terminal : List Terminal
  /-- The calls of `streamstore.Remove`. -/
  removes : List P
  /-- The variable `leftover` when the loop ends (the artifact size when the
  loop is not reached). -/
  leftover : Nat
  /-- The index of the chunk whose read failed. -/
  failedAt : Option Nat
  /-- Whether the invocation ended in a run-time panic. -/
  fault : Bool

/-- The function `client.broadcast` (lines 53-143).  The chunk count is computed
first (a zero chunk size is a division panic); `make` on line 73 panics before
any fan-out when the count is negative or exceeds `maxLen`, the largest length
of the slice `errors` that `make` allocates on the platform; with a count of 0
the metadata is fanned out and the assignment to `errors[0]` is out of range;
otherwise the loop runs, and the invocation ends with `Disconnect` and a return
on a read error, and with the clean-up on `errors[chunks-1]` and `Close` when
the loop runs to its end. -/
def broadcast {P B E : Type} [LinearOrder P] (w iw maxLen size chunkSize : Nat)
    (metadata stream : List B) (witnesses : Option (List P)) (store : Nat → List P)
    (WriteWithTimeout : P → Nat → Option E) : Outcome P B E :=
  match chunks w iw size chunkSize with
  | none => ⟨[], [], [], [], size, none, true⟩
  | some n =>
    let exclude := excludeList witnesses
    if n < 0 ∨ (maxLen : Int) < n then ⟨[], [], [], [], size, none, true⟩
    else
      let r0 := Apply (store 0) (sendMetadata WriteWithTimeout) exclude
      let c0 : ApplyCall P B E := ⟨0, metadata, exclude, r0⟩
      if n = 0 then ⟨[c0], [], [], [], size, none, true⟩
      else
        let lr := loop chunkSize exclude store WriteWithTimeout (n.toNat - 1) 1 size stream r0
        let errors := r0 :: lr.calls.map (fun c => c.results)
        match lr.failedAt with
        | some k => ⟨c0 :: lr.calls, errors, [Terminal.Disconnect], [], lr.leftover, some k, false⟩
        | none =>
          ⟨c0 :: lr.calls, errors, [Terminal.Close],
            cleanup (errors.getD (n.toNat - 1) []), lr.leftover, none, false⟩

/-! ## Observations on an outcome -/

/-- The chunk indices written to peer `p`, in the order of the fan-out calls. -/
def writesTo {P B E : Type} [DecidableEq P] (p : P) (calls : List (ApplyCall P B E)) : List Nat :=
  calls.filterMap (fun c =>
    match lookup p c.results with
    | some s => if s.wrote then some c.index else none
    | none => none)

/-- The keys of a result set. -/
def keys {P E : Type} (r : List (P × Pending E)) : List P := r.map Prod.fst

/-! ## The view of one peer

These definitions are not part of the program: they describe what one peer sees
of a broadcast and are related to `broadcast` by `broadcast_lookup`. -/

/-- The pending result of one peer for chunk `i`, computed from the peer's own
presence at the fan-out calls and its own write outcomes. -/
def chain {E : Type} (present : Nat → Bool) (wr : Nat → Option E) : Nat → Option (Pending E)
  | 0 => if present 0 then some ⟨true, wr 0⟩ else none
  | i + 1 =>
    if present (i + 1) then
      some (match chain present wr i with
        | some s =>
          match s.result with
          | some err => ⟨false, some err⟩
          | none => ⟨true, wr (i + 1)⟩
        | none => ⟨false, none⟩)
    else none

/-- The projection of a chain onto the indices at which a write was made. -/
def writeIndex {E : Type} (present : Nat → Bool) (wr : Nat → Option E) (i : Nat) : Option Nat :=
  match chain present wr i with
  | some s => if s.wrote then some i else none
  | none => none

/-- Whether peer `p` is a key of the result set of chunk `i`. -/
def presentAt {P : Type} [DecidableEq P] (store : Nat → List P) (exclude : List P) (p : P)
    (i : Nat) : Bool :=
  decide (p ∈ store i ∧ p ∉ exclude)


/-- The result set of the last chunk, the entry `errors[chunks-1]` that the
clean-up ranges over. -/
def finalResults {P B E : Type} (w iw size chunkSize : Nat) (out : Outcome P B E) :
    List (P × Pending E) :=
  match chunks w iw size chunkSize with
  | some n => out.errors.getD (n.toNat - 1) []
  | none => []


/-! ## Scenarios -/

/-- The slice-length limit of the scenarios: `make` allocates a slice `errors`
of up to `2 ^ 45` entries, as on a 64-bit platform. -/
def maxLen64 : Nat := 2 ^ 45

/-- The store of a scenario in which peer `1` is missing at the fan-out call of
chunk 1 and back from chunk 2 on. -/
def leavesAtChunkOne : Nat → List Nat := fun i => if i = 1 then [0] else [0, 1]

/-- The write oracle of a scenario: the write of chunk `k` to peer `q` fails
with error `e`, every other write succeeds. -/
def failsAt (q k e : Nat) : Nat → Nat → Option Nat :=
  fun p i => if p = q ∧ i = k then some e else none

/-- The write oracle of a scenario in which every write succeeds. -/
def allSucceed : Nat → Nat → Option Nat := fun _ _ => none

/-- The store of a scenario with the two peers `0` and `1` throughout. -/
def twoPeers : Nat → List Nat := fun _ => [0, 1]

/-- The store of a scenario in which peer `1` connects after the fan-out call
of the metadata. -/
def joinsAfterMetadata : Nat → List Nat := fun i => if i = 0 then [0] else [0, 1]

/-- The chunk plan in the words of the specification: the lengths of the buffers
of an artifact of `size` bytes cut into chunks of `chunkSize` bytes, full chunks
followed by the rest when there is one. -/
def bufferLengths (size chunkSize : Nat) : List Nat :=
  List.replicate (size / chunkSize) chunkSize
    ++ (if size % chunkSize = 0 then [] else [size % chunkSize])


/-! ## Result sets returned by the fan-out primitive -/

theorem lookup_map_pair {P E : Type} [DecidableEq P] (p : P) (f : P → Pending E) (l : List P) :
    lookup p (l.map (fun q => (q, f q))) = if p ∈ l then some (f p) else none := by
  induction l with
  | nil => simp [lookup]
  | cons q rest ih =>
    by_cases h : q = p
    · subst h
      simp [lookup]
    · have h1 : ¬ p = q := fun e => h e.symm
      simp [lookup, h, h1, ih]

theorem lookup_Apply {P E : Type} [DecidableEq P] (p : P) (members : List P)
    (f : P → Pending E) (exclude : List P) :
    lookup p (Apply members f exclude)
      = if p ∈ members ∧ p ∉ exclude then some (f p) else none := by
  unfold Apply
  rw [lookup_map_pair]
  simp [List.mem_filter, List.mem_dedup]

theorem keys_Apply {P E : Type} [DecidableEq P] (members : List P)
    (f : P → Pending E) (exclude : List P) :
    keys (Apply members f exclude)
      = members.dedup.filter (fun p => decide (p ∉ exclude)) := by
  unfold keys Apply
  rw [List.map_map]
  exact List.map_id _

theorem keys_Apply_nodup {P E : Type} [DecidableEq P] (members : List P)
    (f : P → Pending E) (exclude : List P) :
    (keys (Apply members f exclude)).Nodup := by
  rw [keys_Apply]
  exact (List.nodup_dedup members).filter _

theorem mem_keys_Apply {P E : Type} [DecidableEq P] (p : P) (members : List P)
    (f : P → Pending E) (exclude : List P) :
    p ∈ keys (Apply members f exclude) ↔ p ∈ members ∧ p ∉ exclude := by
  rw [keys_Apply]
  simp [List.mem_filter, List.mem_dedup]

theorem lookup_eq_none_of_not_mem_keys {P E : Type} [DecidableEq P] (p : P)
    (r : List (P × Pending E)) (h : p ∉ keys r) : lookup p r = none := by
  induction r with
  | nil => rfl
  | cons e rest ih =>
    obtain ⟨q, s⟩ := e
    simp only [keys, List.map_cons, List.mem_cons, not_or] at h
    have hq : ¬ q = p := fun e => h.1 e.symm
    simp only [lookup, hq, if_false]
    exact ih h.2

theorem mem_of_lookup {P E : Type} [DecidableEq P] (p : P) (s : Pending E)
    (r : List (P × Pending E)) (h : lookup p r = some s) : (p, s) ∈ r := by
  induction r with
  | nil => simp [lookup] at h
  | cons e rest ih =>
    obtain ⟨q, t⟩ := e
    by_cases hq : q = p
    · subst hq
      simp [lookup] at h
      simp [h]
    · simp only [lookup, hq, if_false] at h
      exact List.mem_cons_of_mem _ (ih h)

theorem lookup_of_mem {P E : Type} [DecidableEq P] (p : P) (s : Pending E)
    (r : List (P × Pending E)) (hnd : (keys r).Nodup) (h : (p, s) ∈ r) :
    lookup p r = some s := by
  induction r with
  | nil => simp at h
  | cons e rest ih =>
    obtain ⟨q, t⟩ := e
    simp only [keys, List.map_cons, List.nodup_cons] at hnd
    rcases List.mem_cons.mp h with h1 | h1
    · injection h1 with h2 h3
      subst h2
      subst h3
      simp [lookup]
    · have hq : ¬ q = p := by
        intro e
        subst e
        exact hnd.1 (List.mem_map.mpr ⟨(q, s), h1, rfl⟩)
      simp only [lookup, hq, if_false]
      exact ih hnd.2 h1


/-! ## The chunk loop -/

section Loop

variable {P B E : Type} [DecidableEq P]

theorem lookup_sendChunk_step (exclude : List P) (store : Nat → List P)
    (wr : P → Nat → Option E) (p : P) (i : Nat) (previous : List (P × Pending E))
    (hprev : lookup p previous = chain (presentAt store exclude p) (wr p) i) :
    lookup p (Apply (store (i + 1)) (sendChunk wr (i + 1) previous) exclude)
      = chain (presentAt store exclude p) (wr p) (i + 1) := by
  rw [lookup_Apply]
  simp only [chain, presentAt, sendChunk, hprev, decide_eq_true_eq]

theorem loop_lookup (chunkSize : Nat) (exclude : List P) (store : Nat → List P)
    (wr : P → Nat → Option E) (p : P) :
    ∀ (n i leftover : Nat) (stream : List B) (previous : List (P × Pending E)),
      lookup p previous = chain (presentAt store exclude p) (wr p) i →
      ∀ c ∈ (loop chunkSize exclude store wr n (i + 1) leftover stream previous).calls,
        lookup p c.results = chain (presentAt store exclude p) (wr p) c.index := by
  intro n
  induction n with
  | zero =>
    intro i leftover stream previous _ c hc
    simp [loop] at hc
  | succ n ih =>
    intro i leftover stream previous hprev c hc
    have hstep := lookup_sendChunk_step exclude store wr p i previous hprev
    unfold loop at hc
    simp only at hc
    split at hc
    · simp at hc
    · simp only [List.mem_cons] at hc
      rcases hc with hc | hc
      · subst hc
        exact hstep
      · exact ih (i + 1) _ _ _ hstep c hc

theorem loop_exclude (chunkSize : Nat) (exclude : List P) (store : Nat → List P)
    (wr : P → Nat → Option E) :
    ∀ (n i leftover : Nat) (stream : List B) (previous : List (P × Pending E)),
      ∀ c ∈ (loop chunkSize exclude store wr n i leftover stream previous).calls,
        c.exclude = exclude := by
  intro n
  induction n with
  | zero =>
    intro i leftover stream previous c hc
    simp [loop] at hc
  | succ n ih =>
    intro i leftover stream previous c hc
    unfold loop at hc
    simp only at hc
    split at hc
    · simp at hc
    · simp only [List.mem_cons] at hc
      rcases hc with hc | hc
      · subst hc
        rfl
      · exact ih _ _ _ _ c hc

/-- The indices of the fan-out calls made by the loop are consecutive from the
first index; the loop runs to its end unless a read fails, and a failed read
is the read of the chunk right after the last one dispatched. -/
theorem loop_indices (chunkSize : Nat) (exclude : List P) (store : Nat → List P)
    (wr : P → Nat → Option E) :
    ∀ (n i leftover : Nat) (stream : List B) (previous : List (P × Pending E)),
      let lr := loop chunkSize exclude store wr n i leftover stream previous
      lr.calls.map (fun c => c.index) = List.range' i lr.calls.length ∧
      (lr.failedAt = none → lr.calls.length = n) ∧
      (∀ k, lr.failedAt = some k → k = i + lr.calls.length ∧ lr.calls.length < n) := by
  intro n
  induction n with
  | zero =>
    intro i leftover stream previous
    simp [loop]
  | succ n ih =>
    intro i leftover stream previous
    unfold loop
    simp only
    split
    · simp
    · obtain ⟨h1, h2, h3⟩ := ih (i + 1) (if leftover < chunkSize then 0 else leftover - chunkSize)
        ‹_› (Apply (store i) (sendChunk wr i previous) exclude)
      refine ⟨?_, ?_, ?_⟩
      · simp only [List.map_cons, List.length_cons, List.range'_succ]
        rw [h1]
      · intro h
        simp only [List.length_cons]
        rw [h2 h]
      · intro k hk
        obtain ⟨h4, h5⟩ := h3 k hk
        simp only [List.length_cons]
        omega

/-- The fan-out calls made by the loop, up to their result sets, do not depend
on the outcomes of the writes. -/
theorem loop_shape_indep (chunkSize : Nat) (exclude : List P) (store : Nat → List P)
    (wr wr1 : P → Nat → Option E) :
    ∀ (n i leftover : Nat) (stream : List B) (previous previous1 : List (P × Pending E)),
      (loop chunkSize exclude store wr n i leftover stream previous).calls.map (fun c => c.index)
        = (loop chunkSize exclude store wr1 n i leftover stream previous1).calls.map
            (fun c => c.index) ∧
      (loop chunkSize exclude store wr n i leftover stream previous).failedAt
        = (loop chunkSize exclude store wr1 n i leftover stream previous1).failedAt ∧
      (loop chunkSize exclude store wr n i leftover stream previous).leftover
        = (loop chunkSize exclude store wr1 n i leftover stream previous1).leftover := by
  intro n
  induction n with
  | zero =>
    intro i leftover stream previous previous1
    simp [loop]
  | succ n ih =>
    intro i leftover stream previous previous1
    unfold loop
    simp only
    split
    · simp
    · obtain ⟨h1, h2, h3⟩ := ih (i + 1) (if leftover < chunkSize then 0 else leftover - chunkSize)
        ‹_› (Apply (store i) (sendChunk wr i previous) exclude)
        (Apply (store i) (sendChunk wr1 i previous1) exclude)
      simp only [List.map_cons]
      exact ⟨by rw [h1], h2, h3⟩

end Loop


/-! ## The shape of an invocation -/

section Shape

variable {P B E : Type} [LinearOrder P]

/-- An invocation whose chunk count is positive runs the loop. -/
theorem broadcast_of_pos (w iw maxLen size chunkSize : Nat) (metadata stream : List B)
    (witnesses : Option (List P)) (store : Nat → List P) (wr : P → Nat → Option E)
    (n : Int) (hn : chunks w iw size chunkSize = some n) (hpos : 0 < n)
    (hmax : n ≤ (maxLen : Int)) :
    broadcast w iw maxLen size chunkSize metadata stream witnesses store wr =
      (let exclude := excludeList witnesses
       let r0 := Apply (store 0) (sendMetadata wr) exclude
       let c0 : ApplyCall P B E := ⟨0, metadata, exclude, r0⟩
       let lr := loop chunkSize exclude store wr (n.toNat - 1) 1 size stream r0
       let errors := r0 :: lr.calls.map (fun c => c.results)
       match lr.failedAt with
       | some k => ⟨c0 :: lr.calls, errors, [Terminal.Disconnect], [], lr.leftover, some k, false⟩
       | none =>
         ⟨c0 :: lr.calls, errors, [Terminal.Close],
           cleanup (errors.getD (n.toNat - 1) []), lr.leftover, none, false⟩) := by
  have h1 : ¬ (n < 0 ∨ (maxLen : Int) < n) := by omega
  have h2 : ¬ n = 0 := by omega
  simp only [broadcast, hn, h1, h2, if_false]

/-- The fan-out calls of any invocation: none, or the metadata call followed by
the calls of the loop. -/
theorem broadcast_calls (w iw maxLen size chunkSize : Nat) (metadata stream : List B)
    (witnesses : Option (List P)) (store : Nat → List P) (wr : P → Nat → Option E) :
    (broadcast w iw maxLen size chunkSize metadata stream witnesses store wr).calls = [] ∨
    ∃ m, (broadcast w iw maxLen size chunkSize metadata stream witnesses store wr).calls
      = ⟨0, metadata, excludeList witnesses,
          Apply (store 0) (sendMetadata wr) (excludeList witnesses)⟩ ::
        (loop chunkSize (excludeList witnesses) store wr m 1 size stream
          (Apply (store 0) (sendMetadata wr) (excludeList witnesses))).calls := by
  cases hn : chunks w iw size chunkSize with
  | none => left; simp [broadcast, hn]
  | some n =>
    by_cases h1 : n < 0 ∨ (maxLen : Int) < n
    · left; simp [broadcast, hn, h1]
    · by_cases h2 : n = 0
      · right
        refine ⟨0, ?_⟩
        have h3 : ¬ ((maxLen : Int) < 0) := by omega
        simp [broadcast, hn, h2, h3, loop]
      · right
        refine ⟨n.toNat - 1, ?_⟩
        rw [broadcast_of_pos w iw maxLen size chunkSize metadata stream witnesses store wr n hn
          (by omega) (by omega)]
        simp only
        split <;> rfl

theorem lookup_metadata (exclude : List P) (store : Nat → List P)
    (wr : P → Nat → Option E) (p : P) :
    lookup p (Apply (store 0) (sendMetadata wr) exclude)
      = chain (presentAt store exclude p) (wr p) 0 := by
  rw [lookup_Apply]
  simp only [chain, presentAt, sendMetadata, decide_eq_true_eq]

/-- Every result set of an invocation gives peer `p` the pending result of its
own chain. -/
theorem broadcast_lookup (w iw maxLen size chunkSize : Nat) (metadata stream : List B)
    (witnesses : Option (List P)) (store : Nat → List P) (wr : P → Nat → Option E) (p : P) :
    ∀ c ∈ (broadcast w iw maxLen size chunkSize metadata stream witnesses store wr).calls,
      lookup p c.results
        = chain (presentAt store (excludeList witnesses) p) (wr p) c.index := by
  intro c hc
  rcases broadcast_calls w iw maxLen size chunkSize metadata stream witnesses store wr with h | ⟨m, h⟩
  · rw [h] at hc
    simp at hc
  · rw [h] at hc
    rcases List.mem_cons.mp hc with hc | hc
    · subst hc
      exact lookup_metadata _ store wr p
    · exact loop_lookup chunkSize _ store wr p m 0 size stream _
        (lookup_metadata _ store wr p) c hc

/-- Every fan-out call of an invocation is passed the exclude list. -/
theorem broadcast_exclude (w iw maxLen size chunkSize : Nat) (metadata stream : List B)
    (witnesses : Option (List P)) (store : Nat → List P) (wr : P → Nat → Option E) :
    ∀ c ∈ (broadcast w iw maxLen size chunkSize metadata stream witnesses store wr).calls,
      c.exclude = excludeList witnesses := by
  intro c hc
  rcases broadcast_calls w iw maxLen size chunkSize metadata stream witnesses store wr with h | ⟨m, h⟩
  · rw [h] at hc
    simp at hc
  · rw [h] at hc
    rcases List.mem_cons.mp hc with hc | hc
    · subst hc
      rfl
    · exact loop_exclude chunkSize _ store wr m 1 size stream _ c hc

/-- The fan-out calls of an invocation are those of chunks `0, 1, 2, ...`, in
this order. -/
theorem broadcast_indices (w iw maxLen size chunkSize : Nat) (metadata stream : List B)
    (witnesses : Option (List P)) (store : Nat → List P) (wr : P → Nat → Option E) :
    (broadcast w iw maxLen size chunkSize metadata stream witnesses store wr).calls.map
        (fun c => c.index)
      = List.range (broadcast w iw maxLen size chunkSize metadata stream witnesses store wr).calls.length := by
  rcases broadcast_calls w iw maxLen size chunkSize metadata stream witnesses store wr with h | ⟨m, h⟩
  · rw [h]
    rfl
  · rw [h]
    have h1 := (loop_indices chunkSize (excludeList witnesses) store wr m 1 size stream
      (Apply (store 0) (sendMetadata wr) (excludeList witnesses))).1
    simp only at h1
    simp only [List.map_cons, List.length_cons, h1, List.range_eq_range']
    rw [List.range'_succ]

end Shape


/-! ## The chain of one peer -/

section Chain

variable {E : Type}

theorem chain_absent (present : Nat → Bool) (wr : Nat → Option E) (i : Nat)
    (h : present i = false) : chain present wr i = none := by
  cases i <;> simp [chain, h]

theorem chain_all_ok (present : Nat → Bool) (wr : Nat → Option E) (i : Nat)
    (hp : ∀ j, j ≤ i → present j = true) (hw : ∀ j, j ≤ i → wr j = none) :
    chain present wr i = some ⟨true, none⟩ := by
  induction i with
  | zero => simp [chain, hp 0 (Nat.le_refl 0), hw 0 (Nat.le_refl 0)]
  | succ i ih =>
    have h1 := ih (fun j hj => hp j (by omega)) (fun j hj => hw j (by omega))
    simp [chain, hp (i + 1) (Nat.le_refl _), hw (i + 1) (Nat.le_refl _), h1]

theorem chain_at_failure (present : Nat → Bool) (wr : Nat → Option E) (k : Nat) (e : E)
    (hp : ∀ j, j ≤ k → present j = true) (hw : ∀ j, j < k → wr j = none)
    (hk : wr k = some e) : chain present wr k = some ⟨true, some e⟩ := by
  cases k with
  | zero => simp [chain, hp 0 (Nat.le_refl 0), hk]
  | succ k =>
    have h1 := chain_all_ok present wr k (fun j hj => hp j (by omega))
      (fun j hj => hw j (by omega))
    simp [chain, hp (k + 1) (Nat.le_refl _), hk, h1]

theorem chain_after_failure (present : Nat → Bool) (wr : Nat → Option E) (k : Nat) (e : E)
    (hw : ∀ j, j < k → wr j = none) (hk : wr k = some e) (d : Nat)
    (hp : ∀ j, j ≤ k + d + 1 → present j = true) :
    chain present wr (k + d + 1) = some ⟨false, some e⟩ := by
  induction d with
  | zero =>
    have h1 := chain_at_failure present wr k e (fun j hj => hp j (by omega)) hw hk
    simp [chain, hp (k + 1) (by omega), h1]
  | succ d ih =>
    have h1 := ih (fun j hj => hp j (by omega))
    have h2 : k + (d + 1) + 1 = (k + d + 1) + 1 := by omega
    rw [h2, chain, h1]
    simp [hp (k + d + 1 + 1) (by omega)]

/-- An error carried by a pending result is the error of a write that was made
to the same peer for the same or an earlier chunk. -/
theorem chain_error_origin (present : Nat → Bool) (wr : Nat → Option E) (i : Nat) (b : Bool)
    (e : E) (h : chain present wr i = some ⟨b, some e⟩) :
    ∃ j, j ≤ i ∧ chain present wr j = some ⟨true, some e⟩ := by
  induction i generalizing b with
  | zero =>
    refine ⟨0, Nat.le_refl 0, ?_⟩
    by_cases hp : present 0 = true
    · simp only [chain, hp, if_true, Option.some.injEq, Pending.mk.injEq] at h ⊢
      exact ⟨trivial, h.2⟩
    · simp [chain, hp] at h
  | succ i ih =>
    by_cases hp : present (i + 1) = true
    · simp only [chain, hp, if_true, Option.some.injEq] at h
      cases hc : chain present wr i with
      | none =>
        rw [hc] at h
        simp at h
      | some s =>
        rw [hc] at h
        obtain ⟨sw, sr⟩ := s
        cases sr with
        | none =>
          simp only [Pending.mk.injEq] at h
          refine ⟨i + 1, Nat.le_refl _, ?_⟩
          simp only [chain, hp, if_true, hc, h.2]
        | some e1 =>
          simp only [Pending.mk.injEq, Option.some.injEq] at h
          obtain ⟨j, hj, hj1⟩ := ih sw (by rw [hc, h.2])
          exact ⟨j, by omega, hj1⟩
    · simp [chain, hp] at h

end Chain

/-! ## Sequences of writes -/

theorem filterMap_range_all (g : Nat → Option Nat) (n : Nat)
    (h : ∀ i, i < n → g i = some i) : (List.range n).filterMap g = List.range n := by
  induction n with
  | zero => rfl
  | succ n ih =>
    rw [List.range_succ, List.filterMap_append, ih (fun i hi => h i (by omega))]
    simp [h n (Nat.lt_succ_self n)]

theorem filterMap_range_cut (g : Nat → Option Nat) (k n : Nat) (hk : k < n)
    (h1 : ∀ i, i ≤ k → g i = some i) (h2 : ∀ i, k < i → i < n → g i = none) :
    (List.range n).filterMap g = List.range (k + 1) := by
  induction n with
  | zero => omega
  | succ n ih =>
    rw [List.range_succ, List.filterMap_append]
    by_cases hkn : k = n
    · subst hkn
      rw [filterMap_range_all g k (fun i hi => h1 i (by omega))]
      simp [h1 k (Nat.le_refl k), List.range_succ]
    · rw [ih (by omega) (fun i hi hin => h2 i hi (by omega))]
      simp [h2 n (by omega) (Nat.lt_succ_self n)]

theorem writesTo_eq_filterMap {P B E : Type} [DecidableEq P] (p : P) (present : Nat → Bool)
    (wr : Nat → Option E) (calls : List (ApplyCall P B E))
    (h : ∀ c ∈ calls, lookup p c.results = chain present wr c.index) :
    writesTo p calls = (calls.map (fun c => c.index)).filterMap (writeIndex present wr) := by
  induction calls with
  | nil => rfl
  | cons c rest ih =>
    have h1 := h c (List.mem_cons_self _ _)
    have h2 := ih (fun d hd => h d (List.mem_cons_of_mem _ hd))
    unfold writesTo at h2 ⊢
    simp only [List.filterMap_cons, List.map_cons, h1, h2, writeIndex]


/-! ## Completed and aborted invocations -/

section Runs

variable {P B E : Type} [LinearOrder P]

theorem loop_keys (chunkSize : Nat) (exclude : List P) (store : Nat → List P)
    (wr : P → Nat → Option E) :
    ∀ (n i leftover : Nat) (stream : List B) (previous : List (P × Pending E)),
      ∀ c ∈ (loop chunkSize exclude store wr n i leftover stream previous).calls,
        keys c.results = (store c.index).dedup.filter (fun p => decide (p ∉ exclude)) := by
  intro n
  induction n with
  | zero =>
    intro i leftover stream previous c hc
    simp [loop] at hc
  | succ n ih =>
    intro i leftover stream previous c hc
    unfold loop at hc
    simp only at hc
    split at hc
    · simp at hc
    · simp only [List.mem_cons] at hc
      rcases hc with hc | hc
      · subst hc
        exact keys_Apply _ _ _
      · exact ih _ _ _ _ c hc

/-- The keys of every result set are the members of the store at that fan-out
call that are not excluded. -/
theorem broadcast_keys (w iw maxLen size chunkSize : Nat) (metadata stream : List B)
    (witnesses : Option (List P)) (store : Nat → List P) (wr : P → Nat → Option E) :
    ∀ c ∈ (broadcast w iw maxLen size chunkSize metadata stream witnesses store wr).calls,
      keys c.results
        = (store c.index).dedup.filter (fun p => decide (p ∉ excludeList witnesses)) := by
  intro c hc
  rcases broadcast_calls w iw maxLen size chunkSize metadata stream witnesses store wr with h | ⟨m, h⟩
  · rw [h] at hc
    simp at hc
  · rw [h] at hc
    rcases List.mem_cons.mp hc with hc | hc
    · subst hc
      exact keys_Apply _ _ _
    · exact loop_keys chunkSize _ store wr m 1 size stream _ c hc

theorem broadcast_keys_nodup (w iw maxLen size chunkSize : Nat) (metadata stream : List B)
    (witnesses : Option (List P)) (store : Nat → List P) (wr : P → Nat → Option E) :
    ∀ c ∈ (broadcast w iw maxLen size chunkSize metadata stream witnesses store wr).calls,
      (keys c.results).Nodup := by
  intro c hc
  rw [broadcast_keys w iw maxLen size chunkSize metadata stream witnesses store wr c hc]
  exact (List.nodup_dedup _).filter _

/-- An invocation in which the read of chunk `k` fails: the chunk count is
positive, `k` is the index of a data chunk, exactly `k` fan-out calls were made,
the artifact is disconnected and no peer is removed. -/
theorem broadcast_abort (w iw maxLen size chunkSize : Nat) (metadata stream : List B)
    (witnesses : Option (List P)) (store : Nat → List P) (wr : P → Nat → Option E) (k : Nat)
    (hf : (broadcast w iw maxLen size chunkSize metadata stream witnesses store wr).failedAt = some k) :
    (∃ n : Int, chunks w iw size chunkSize = some n ∧ 1 ≤ k ∧ (k : Int) < n) ∧
    (broadcast w iw maxLen size chunkSize metadata stream witnesses store wr).calls.length = k ∧
    (broadcast w iw maxLen size chunkSize metadata stream witnesses store wr).terminal
      = [Terminal.Disconnect] ∧
    (broadcast w iw maxLen size chunkSize metadata stream witnesses store wr).removes = [] ∧
    (broadcast w iw maxLen size chunkSize metadata stream witnesses store wr).fault = false := by
  cases hn : chunks w iw size chunkSize with
  | none => simp [broadcast, hn] at hf
  | some n =>
    by_cases h1 : n < 0 ∨ (maxLen : Int) < n
    · simp [broadcast, hn, h1] at hf
    · by_cases h2 : n = 0
      · have h3 : ¬ ((maxLen : Int) < 0) := by omega
        simp [broadcast, hn, h2, h3] at hf
      · have hpos : 0 < n := by omega
        have hmax : n ≤ (maxLen : Int) := by omega
        rw [broadcast_of_pos w iw maxLen size chunkSize metadata stream witnesses store wr n hn hpos hmax]
          at hf ⊢
        simp only at hf ⊢
        obtain ⟨-, -, h5⟩ := loop_indices chunkSize (excludeList witnesses) store wr
          (n.toNat - 1) 1 size stream
          (Apply (store 0) (sendMetadata wr) (excludeList witnesses))
        split at hf
        · rename_i k1 hk1
          simp only [Option.some.injEq] at hf
          subst hf
          obtain ⟨h6, h7⟩ := h5 k1 hk1
          refine ⟨⟨n, rfl, by omega, by omega⟩, ?_, rfl, rfl, rfl⟩
          simp only [List.length_cons]
          omega
        · simp at hf

/-- An invocation with a positive chunk count in which no read fails: one
fan-out call per chunk, the artifact is closed, and the clean-up runs on the
result set of the last chunk. -/
theorem broadcast_complete (w iw maxLen size chunkSize : Nat) (metadata stream : List B)
    (witnesses : Option (List P)) (store : Nat → List P) (wr : P → Nat → Option E) (n : Int)
    (hn : chunks w iw size chunkSize = some n) (hpos : 0 < n) (hmax : n ≤ (maxLen : Int))
    (hf : (broadcast w iw maxLen size chunkSize metadata stream witnesses store wr).failedAt = none) :
    (broadcast w iw maxLen size chunkSize metadata stream witnesses store wr).calls.length = n.toNat ∧
    (broadcast w iw maxLen size chunkSize metadata stream witnesses store wr).terminal
      = [Terminal.Close] ∧
    (broadcast w iw maxLen size chunkSize metadata stream witnesses store wr).errors
      = (broadcast w iw maxLen size chunkSize metadata stream witnesses store wr).calls.map
          (fun c => c.results) ∧
    (broadcast w iw maxLen size chunkSize metadata stream witnesses store wr).removes
      = cleanup ((broadcast w iw maxLen size chunkSize metadata stream witnesses store wr).errors.getD
          (n.toNat - 1) []) ∧
    (broadcast w iw maxLen size chunkSize metadata stream witnesses store wr).fault = false := by
  rw [broadcast_of_pos w iw maxLen size chunkSize metadata stream witnesses store wr n hn hpos hmax]
    at hf ⊢
  simp only at hf ⊢
  obtain ⟨-, h4, -⟩ := loop_indices chunkSize (excludeList witnesses) store wr
    (n.toNat - 1) 1 size stream
    (Apply (store 0) (sendMetadata wr) (excludeList witnesses))
  split at hf
  · simp at hf
  · rename_i hk
    simp only [List.length_cons, List.map_cons, and_self, and_true, true_and]
    rw [h4 hk]
    omega

/-- The indices of the fan-out calls, the failed read, the terminal calls and
the fault of an invocation do not depend on the outcomes of the writes. -/
theorem broadcast_shape_indep (w iw maxLen size chunkSize : Nat) (metadata stream : List B)
    (witnesses : Option (List P)) (store : Nat → List P) (wr wr1 : P → Nat → Option E) :
    (broadcast w iw maxLen size chunkSize metadata stream witnesses store wr).calls.map
        (fun c => c.index)
      = (broadcast w iw maxLen size chunkSize metadata stream witnesses store wr1).calls.map
        (fun c => c.index) ∧
    (broadcast w iw maxLen size chunkSize metadata stream witnesses store wr).failedAt
      = (broadcast w iw maxLen size chunkSize metadata stream witnesses store wr1).failedAt ∧
    (broadcast w iw maxLen size chunkSize metadata stream witnesses store wr).terminal
      = (broadcast w iw maxLen size chunkSize metadata stream witnesses store wr1).terminal ∧
    (broadcast w iw maxLen size chunkSize metadata stream witnesses store wr).leftover
      = (broadcast w iw maxLen size chunkSize metadata stream witnesses store wr1).leftover ∧
    (broadcast w iw maxLen size chunkSize metadata stream witnesses store wr).fault
      = (broadcast w iw maxLen size chunkSize metadata stream witnesses store wr1).fault := by
  cases hn : chunks w iw size chunkSize with
  | none => simp [broadcast, hn]
  | some n =>
    by_cases h1 : n < 0 ∨ (maxLen : Int) < n
    · simp [broadcast, hn, h1]
    · by_cases h2 : n = 0
      · have h3 : ¬ ((maxLen : Int) < 0) := by omega
        simp [broadcast, hn, h2, h3]
      · have hpos : 0 < n := by omega
        have hmax : n ≤ (maxLen : Int) := by omega
        rw [broadcast_of_pos w iw maxLen size chunkSize metadata stream witnesses store wr n hn hpos hmax,
          broadcast_of_pos w iw maxLen size chunkSize metadata stream witnesses store wr1 n hn hpos hmax]
        simp only
        obtain ⟨h3, h4, h5⟩ := loop_shape_indep chunkSize (excludeList witnesses) store wr wr1
          (n.toNat - 1) 1 size stream
          (Apply (store 0) (sendMetadata wr) (excludeList witnesses))
          (Apply (store 0) (sendMetadata wr1) (excludeList witnesses))
        rw [← h4]
        split
        · simp only [List.map_cons, h3, h5, and_self]
        · simp only [List.map_cons, h3, h5, and_self]

end Runs


/-! ## The claims on the send pipeline -/

section Claims

variable {P B E : Type} [LinearOrder P]

theorem writesTo_eq_nil_of_lookup_none (p : P) (calls : List (ApplyCall P B E))
    (h : ∀ c ∈ calls, lookup p c.results = none) : writesTo p calls = [] := by
  induction calls with
  | nil => rfl
  | cons c rest ih =>
    have h1 := h c (List.mem_cons_self _ _)
    have h2 := ih (fun d hd => h d (List.mem_cons_of_mem _ hd))
    unfold writesTo at h2 ⊢
    simp only [List.filterMap_cons, h1, h2]

theorem writesTo_broadcast (w iw maxLen size chunkSize : Nat) (metadata stream : List B)
    (witnesses : Option (List P)) (store : Nat → List P) (wr : P → Nat → Option E) (p : P) :
    writesTo p (broadcast w iw maxLen size chunkSize metadata stream witnesses store wr).calls
      = (List.range
          (broadcast w iw maxLen size chunkSize metadata stream witnesses store wr).calls.length).filterMap
          (writeIndex (presentAt store (excludeList witnesses) p) (wr p)) := by
  rw [writesTo_eq_filterMap p _ (wr p) _
    (broadcast_lookup w iw maxLen size chunkSize metadata stream witnesses store wr p),
    broadcast_indices]

/-- In a broadcast whose reads all succeed, the writes attempted to a peer
that is in the stream store at every fan-out call and is not excluded are those
of chunks `0, 1, 2, ...` in increasing order: all `chunks` of them when none of
its writes fails, and those up to and including the first chunk `k` whose write
fails otherwise, every later result of that peer being the same error with no
write attempted; the writes attempted to a peer depend on the write outcomes of
that peer only. -/
theorem write_sequence_of_present_peer (w iw maxLen size chunkSize : Nat) (metadata stream : List B)
    (witnesses : Option (List P)) (store : Nat → List P) (wr : P → Nat → Option E) (p : P)
    (hreads : (broadcast w iw maxLen size chunkSize metadata stream witnesses store wr).failedAt = none)
    (hmem : ∀ i,
      i < (broadcast w iw maxLen size chunkSize metadata stream witnesses store wr).calls.length →
      p ∈ store i)
    (hex : p ∉ excludeList witnesses) :
    (∀ n : Int, chunks w iw size chunkSize = some n → 0 < n → n ≤ (maxLen : Int) →
      (broadcast w iw maxLen size chunkSize metadata stream witnesses store wr).calls.length
        = n.toNat) ∧
    ((∀ i, i < (broadcast w iw maxLen size chunkSize metadata stream witnesses store wr).calls.length →
        wr p i = none) →
      writesTo p (broadcast w iw maxLen size chunkSize metadata stream witnesses store wr).calls
        = List.range
            (broadcast w iw maxLen size chunkSize metadata stream witnesses store wr).calls.length) ∧
    (∀ (k : Nat) (e : E),
      k < (broadcast w iw maxLen size chunkSize metadata stream witnesses store wr).calls.length →
      (∀ j, j < k → wr p j = none) → wr p k = some e →
      writesTo p (broadcast w iw maxLen size chunkSize metadata stream witnesses store wr).calls
        = List.range (k + 1) ∧
      ∀ c ∈ (broadcast w iw maxLen size chunkSize metadata stream witnesses store wr).calls,
        k < c.index → lookup p c.results = some ⟨false, some e⟩) ∧
    (∀ wr1 : P → Nat → Option E, (∀ i, wr1 p i = wr p i) →
      writesTo p (broadcast w iw maxLen size chunkSize metadata stream witnesses store wr1).calls
        = writesTo p (broadcast w iw maxLen size chunkSize metadata stream witnesses store wr).calls) := by
  have hpres : ∀ i,
      i < (broadcast w iw maxLen size chunkSize metadata stream witnesses store wr).calls.length →
      presentAt store (excludeList witnesses) p i = true := by
    intro i hi
    simp [presentAt, hmem i hi, hex]
  refine ⟨?_, ?_, ?_, ?_⟩
  · intro n hn hpos hmax
    exact (broadcast_complete w iw maxLen size chunkSize metadata stream witnesses store wr n hn
      hpos hmax hreads).1
  · intro hok
    rw [writesTo_broadcast]
    apply filterMap_range_all
    intro i hi
    have h1 := chain_all_ok (presentAt store (excludeList witnesses) p) (wr p) i
      (fun j hj => hpres j (by omega)) (fun j hj => hok j (by omega))
    simp [writeIndex, h1]
  · intro k e hk hbefore hfail
    have hat := chain_at_failure (presentAt store (excludeList witnesses) p) (wr p) k e
      (fun j hj => hpres j (by omega)) hbefore hfail
    have hafter : ∀ i, k < i →
        i < (broadcast w iw maxLen size chunkSize metadata stream witnesses store wr).calls.length →
        chain (presentAt store (excludeList witnesses) p) (wr p) i = some ⟨false, some e⟩ := by
      intro i hi hiN
      have h1 := chain_after_failure (presentAt store (excludeList witnesses) p) (wr p) k e
        hbefore hfail (i - k - 1) (fun j hj => hpres j (by omega))
      have h2 : k + (i - k - 1) + 1 = i := by omega
      rw [h2] at h1
      exact h1
    constructor
    · rw [writesTo_broadcast]
      apply filterMap_range_cut _ k _ hk
      · intro i hi
        by_cases hik : i = k
        · subst hik
          simp [writeIndex, hat]
        · have h1 := chain_all_ok (presentAt store (excludeList witnesses) p) (wr p) i
            (fun j hj => hpres j (by omega)) (fun j hj => hbefore j (by omega))
          simp [writeIndex, h1]
      · intro i hi hiN
        simp [writeIndex, hafter i hi hiN]
    · intro c hc hkc
      have hcN : c.index
          < (broadcast w iw maxLen size chunkSize metadata stream witnesses store wr).calls.length := by
        have h3 : c.index ∈ (broadcast w iw maxLen size chunkSize metadata stream witnesses store
            wr).calls.map (fun c => c.index) := List.mem_map.mpr ⟨c, hc, rfl⟩
        rw [broadcast_indices] at h3
        exact List.mem_range.mp h3
      rw [broadcast_lookup w iw maxLen size chunkSize metadata stream witnesses store wr p c hc]
      exact hafter c.index hkc hcN
  · intro wr1 hwr
    have hfun : wr1 p = wr p := funext hwr
    rw [writesTo_broadcast, writesTo_broadcast, hfun]
    have h1 := (broadcast_shape_indep w iw maxLen size chunkSize metadata stream witnesses store
      wr wr1).1
    have h2 := congrArg List.length h1
    simp only [List.length_map] at h2
    rw [h2]

/-- C4: every fan-out call of a broadcast is passed the exclude list, which is a
permutation of the witness entry of the checksum (sorted) and is empty when the
cache has no entry; a peer of the witness entry is in the exclude list of every
call, is a key of no result set, and no chunk is written to it. -/
theorem C4_exclude_list (w iw maxLen size chunkSize : Nat) (metadata stream : List B)
    (witnesses : Option (List P)) (store : Nat → List P) (wr : P → Nat → Option E) :
    (∀ c ∈ (broadcast w iw maxLen size chunkSize metadata stream witnesses store wr).calls,
      c.exclude = excludeList witnesses) ∧
    (∀ ws, witnesses = some ws →
      (excludeList witnesses).Perm ws ∧ (excludeList witnesses).Sorted (fun a b => a ≤ b)) ∧
    (witnesses = none → excludeList witnesses = []) ∧
    (∀ ws p, witnesses = some ws → p ∈ ws →
      (∀ c ∈ (broadcast w iw maxLen size chunkSize metadata stream witnesses store wr).calls,
        p ∈ c.exclude ∧ p ∉ keys c.results) ∧
      writesTo p (broadcast w iw maxLen size chunkSize metadata stream witnesses store wr).calls
        = []) := by
  refine ⟨broadcast_exclude w iw maxLen size chunkSize metadata stream witnesses store wr, ?_, ?_, ?_⟩
  · intro ws hws
    subst hws
    exact ⟨List.perm_insertionSort _ _, List.sorted_insertionSort _ _⟩
  · intro hws
    subst hws
    rfl
  · intro ws p hws hp
    have hmem : p ∈ excludeList witnesses := by
      subst hws
      exact (List.perm_insertionSort _ _).mem_iff.mpr hp
    have hkeys : ∀ c ∈ (broadcast w iw maxLen size chunkSize metadata stream witnesses store wr).calls,
        p ∉ keys c.results := by
      intro c hc
      rw [broadcast_keys w iw maxLen size chunkSize metadata stream witnesses store wr c hc]
      simp [List.mem_filter, hmem]
    constructor
    · intro c hc
      refine ⟨?_, hkeys c hc⟩
      rw [broadcast_exclude w iw maxLen size chunkSize metadata stream witnesses store wr c hc]
      exact hmem
    · apply writesTo_eq_nil_of_lookup_none
      intro c hc
      exact lookup_eq_none_of_not_mem_keys p c.results (hkeys c hc)

/-- When the read of the artifact for chunk `k` fails, `k` is the index of a
data chunk (`1 ≤ k < chunks`) and the fan-out primitive has been invoked exactly
`k` times, for the chunks `0, ..., k - 1` in this order, whatever the membership
of the store: it is invoked for no chunk of index `k` or more. -/
theorem dispatch_count_of_failed_read (w iw maxLen size chunkSize : Nat) (metadata stream : List B)
    (witnesses : Option (List P)) (store : Nat → List P) (wr : P → Nat → Option E) (k : Nat)
    (hfail : (broadcast w iw maxLen size chunkSize metadata stream witnesses store wr).failedAt
      = some k) :
    (∃ n : Int, chunks w iw size chunkSize = some n ∧ 1 ≤ k ∧ (k : Int) < n) ∧
    (broadcast w iw maxLen size chunkSize metadata stream witnesses store wr).calls.length = k ∧
    (broadcast w iw maxLen size chunkSize metadata stream witnesses store wr).calls.map
      (fun c => c.index) = List.range k ∧
    (∀ c ∈ (broadcast w iw maxLen size chunkSize metadata stream witnesses store wr).calls,
      c.index < k) := by
  obtain ⟨h1, h2, -, -, -⟩ := broadcast_abort w iw maxLen size chunkSize metadata stream witnesses
    store wr k hfail
  have h3 := broadcast_indices w iw maxLen size chunkSize metadata stream witnesses store wr
  rw [h2] at h3
  refine ⟨h1, h2, h3, ?_⟩
  intro c hc
  have h4 : c.index ∈ List.range k := by
    rw [← h3]
    exact List.mem_map.mpr ⟨c, hc, rfl⟩
  exact List.mem_range.mp h4

/-- On a reader that delivers the bytes of `j` full chunks and fewer than the
next buffer needs, the loop dispatches `j` chunks and the read of the chunk
after them fails. -/
theorem loop_short_read (chunkSize : Nat) (exclude : List P) (store : Nat → List P)
    (wr : P → Nat → Option E) :
    ∀ (j n i leftover : Nat) (stream : List B) (previous : List (P × Pending E)),
      j < n → j * chunkSize ≤ stream.length → stream.length < (j + 1) * chunkSize →
      stream.length < leftover →
      (loop chunkSize exclude store wr n i leftover stream previous).failedAt = some (i + j) ∧
      (loop chunkSize exclude store wr n i leftover stream previous).calls.length = j := by
  intro j
  induction j with
  | zero =>
    intro n i leftover stream previous hjn _ hshort hleft
    obtain ⟨m, rfl⟩ : ∃ m, n = m + 1 := ⟨n - 1, by omega⟩
    rw [Nat.zero_add, Nat.one_mul] at hshort
    have hlen : ¬ (if leftover < chunkSize then leftover else chunkSize) ≤ stream.length := by
      split <;> omega
    have hr : ReadFull stream (if leftover < chunkSize then leftover else chunkSize) = none := by
      unfold ReadFull
      rw [if_neg hlen]
    simp only [loop, hr, Nat.add_zero, List.length_nil, and_self]
  | succ j ih =>
    intro n i leftover stream previous hjn hfit hshort hleft
    obtain ⟨m, rfl⟩ : ∃ m, n = m + 1 := ⟨n - 1, by omega⟩
    rw [Nat.succ_mul] at hfit
    rw [Nat.succ_mul, Nat.succ_mul] at hshort
    have hge : ¬ leftover < chunkSize := by omega
    have hle : chunkSize ≤ stream.length := by omega
    have hr : ReadFull stream chunkSize = some (stream.take chunkSize, stream.drop chunkSize) := by
      unfold ReadFull
      rw [if_pos hle]
    obtain ⟨h1, h2⟩ := ih m (i + 1) (leftover - chunkSize) (stream.drop chunkSize)
      (Apply (store i) (sendChunk wr i previous) exclude) (by omega)
      (by rw [List.length_drop]; omega)
      (by rw [List.length_drop, Nat.succ_mul]; omega)
      (by rw [List.length_drop]; omega)
    simp only [loop, hge, if_false, hr, List.length_cons, h1, h2, Option.some.injEq, and_true]
    omega

/-- C5: for a chunk index `k` with `1 ≤ k < chunks` (and a slice `errors` that
can be allocated), when the read of chunk `k` is the first to fail, that is,
when the reader delivers the `(k - 1) * ChunkSize` bytes that the reads of
chunks `1, ..., k - 1` take and fewer than the `min(k * ChunkSize, Size)` bytes
that the reads of chunks `1, ..., k` take, the broadcast stops at the read of
chunk `k` and the fan-out primitive has been invoked exactly `k` times, for the
chunks `0, ..., k - 1` in this order and for no chunk of index `k` or more,
whatever the membership of the store. -/
theorem C5_read_failure_stops_dispatch (w iw maxLen size chunkSize : Nat)
    (metadata stream : List B) (witnesses : Option (List P)) (store : Nat → List P)
    (wr : P → Nat → Option E) (n : Int) (k : Nat)
    (hn : chunks w iw size chunkSize = some n) (hmax : n ≤ (maxLen : Int))
    (hk1 : 1 ≤ k) (hkn : (k : Int) < n)
    (hfit : (k - 1) * chunkSize ≤ stream.length)
    (hshort : stream.length < k * chunkSize) (hsize : stream.length < size) :
    (broadcast w iw maxLen size chunkSize metadata stream witnesses store wr).failedAt = some k ∧
    (broadcast w iw maxLen size chunkSize metadata stream witnesses store wr).calls.length = k ∧
    (broadcast w iw maxLen size chunkSize metadata stream witnesses store wr).calls.map
      (fun c => c.index) = List.range k ∧
    (∀ c ∈ (broadcast w iw maxLen size chunkSize metadata stream witnesses store wr).calls,
      c.index < k) := by
  have hfail : (broadcast w iw maxLen size chunkSize metadata stream witnesses store
      wr).failedAt = some k := by
    have hpos : 0 < n := by omega
    have hk : k - 1 + 1 = k := by omega
    obtain ⟨h1, -⟩ := loop_short_read chunkSize (excludeList witnesses) store wr (k - 1)
      (n.toNat - 1) 1 size stream (Apply (store 0) (sendMetadata wr) (excludeList witnesses))
      (by omega) hfit (by rw [hk]; exact hshort) hsize
    rw [broadcast_of_pos w iw maxLen size chunkSize metadata stream witnesses store wr n hn hpos
      hmax]
    simp only [h1, Option.some.injEq]
    omega
  obtain ⟨-, h2, h3, h4⟩ := dispatch_count_of_failed_read w iw maxLen size chunkSize metadata
    stream witnesses store wr k hfail
  exact ⟨hfail, h2, h3, h4⟩

end Claims


/-! ## The clean-up -/

theorem mem_cleanup {P E : Type} (p : P) (r : List (P × Pending E)) :
    p ∈ cleanup r ↔ ∃ b e, (p, (⟨b, some e⟩ : Pending E)) ∈ r := by
  unfold cleanup
  constructor
  · intro h
    obtain ⟨⟨q, s⟩, hqs, hq⟩ := List.mem_map.mp h
    simp only at hq
    subst hq
    obtain ⟨hmem, hsome⟩ := List.mem_filter.mp hqs
    obtain ⟨b, res⟩ := s
    cases res with
    | none => simp at hsome
    | some e => exact ⟨b, e, hmem⟩
  · rintro ⟨b, e, hmem⟩
    exact List.mem_map.mpr ⟨(p, ⟨b, some e⟩), List.mem_filter.mpr ⟨hmem, rfl⟩, rfl⟩

theorem cleanup_nodup {P E : Type} (r : List (P × Pending E)) (h : (keys r).Nodup) :
    (cleanup r).Nodup := by
  unfold cleanup
  exact h.sublist (List.Sublist.map _ (List.filter_sublist _))

section Cleanup

variable {P B E : Type} [LinearOrder P]

/-- In a completed invocation the clean-up ranges over the result set of the
last fan-out call, which is the call of chunk `chunks - 1`. -/
theorem final_is_last_call (w iw maxLen size chunkSize : Nat) (metadata stream : List B)
    (witnesses : Option (List P)) (store : Nat → List P) (wr : P → Nat → Option E) (n : Int)
    (hn : chunks w iw size chunkSize = some n) (hpos : 0 < n) (hmax : n ≤ (maxLen : Int))
    (hf : (broadcast w iw maxLen size chunkSize metadata stream witnesses store wr).failedAt = none) :
    ∃ c ∈ (broadcast w iw maxLen size chunkSize metadata stream witnesses store wr).calls,
      (broadcast w iw maxLen size chunkSize metadata stream witnesses store wr).calls.getLast? = some c ∧
      c.index = n.toNat - 1 ∧
      finalResults w iw size chunkSize
        (broadcast w iw maxLen size chunkSize metadata stream witnesses store wr) = c.results := by
  obtain ⟨hlen, -, herr, -, -⟩ := broadcast_complete w iw maxLen size chunkSize metadata stream
    witnesses store wr n hn hpos hmax hf
  have hidx := broadcast_indices w iw maxLen size chunkSize metadata stream witnesses store wr
  have hlt : n.toNat - 1
      < (broadcast w iw maxLen size chunkSize metadata stream witnesses store wr).calls.length := by
    omega
  refine ⟨(broadcast w iw maxLen size chunkSize metadata stream witnesses store wr).calls[n.toNat - 1],
    List.getElem_mem _, ?_, ?_, ?_⟩
  · rw [List.getLast?_eq_getElem?, hlen, List.getElem?_eq_getElem hlt]
  · have h1 : ((broadcast w iw maxLen size chunkSize metadata stream witnesses store wr).calls.map
        (fun c => c.index))[n.toNat - 1]? = some (n.toNat - 1) := by
      rw [hidx, List.getElem?_range hlt]
    rw [List.getElem?_map, List.getElem?_eq_getElem hlt] at h1
    simpa using h1
  · simp only [finalResults, hn, herr, List.getD_eq_getElem?_getD, List.getElem?_map,
      List.getElem?_eq_getElem hlt, Option.map_some', Option.getD_some]

/-- C6: in a broadcast whose reads all succeed, the clean-up ranges over the
result set of the last fan-out call; a peer is removed exactly once when its
pending result in that set is an error and not at all otherwise, and a peer all
of whose attempted writes succeeded is not removed. -/
theorem C6_cleanup_removes (w iw maxLen size chunkSize : Nat) (metadata stream : List B)
    (witnesses : Option (List P)) (store : Nat → List P) (wr : P → Nat → Option E)
    (hreads : (broadcast w iw maxLen size chunkSize metadata stream witnesses store wr).failedAt = none) :
    ((broadcast w iw maxLen size chunkSize metadata stream witnesses store wr).fault = false →
      (broadcast w iw maxLen size chunkSize metadata stream witnesses store wr).calls.getLast?.map
          (fun c => c.results)
        = some (finalResults w iw size chunkSize
            (broadcast w iw maxLen size chunkSize metadata stream witnesses store wr))) ∧
    (∀ p, (∃ b e, (p, (⟨b, some e⟩ : Pending E)) ∈ finalResults w iw size chunkSize
          (broadcast w iw maxLen size chunkSize metadata stream witnesses store wr)) →
      (broadcast w iw maxLen size chunkSize metadata stream witnesses store wr).removes.count p = 1) ∧
    (∀ p, (¬ ∃ b e, (p, (⟨b, some e⟩ : Pending E)) ∈ finalResults w iw size chunkSize
          (broadcast w iw maxLen size chunkSize metadata stream witnesses store wr)) →
      (broadcast w iw maxLen size chunkSize metadata stream witnesses store wr).removes.count p = 0) ∧
    (∀ p, (∀ c ∈ (broadcast w iw maxLen size chunkSize metadata stream witnesses store wr).calls,
          ∀ s, (p, s) ∈ c.results → s.wrote = true → s.result = none) →
      p ∉ (broadcast w iw maxLen size chunkSize metadata stream witnesses store wr).removes) := by
  cases hn : chunks w iw size chunkSize with
  | none => simp [broadcast, hn, finalResults]
  | some n =>
    by_cases h1 : n < 0 ∨ (maxLen : Int) < n
    · simp [broadcast, hn, h1, finalResults]
    · by_cases h2 : n = 0
      · have h3 : ¬ ((maxLen : Int) < 0) := by omega
        simp [broadcast, hn, h2, h3, finalResults]
      · have hpos : 0 < n := by omega
        have hmax : n ≤ (maxLen : Int) := by omega
        obtain ⟨hlen, -, -, hrem, -⟩ := broadcast_complete w iw maxLen size chunkSize metadata stream
          witnesses store wr n hn hpos hmax hreads
        obtain ⟨cl, hcl, hlast, hclidx, hfinal⟩ := final_is_last_call w iw maxLen size chunkSize
          metadata stream witnesses store wr n hn hpos hmax hreads
        have hrem1 : (broadcast w iw maxLen size chunkSize metadata stream witnesses store wr).removes
            = cleanup cl.results := by
          rw [hrem, ← hfinal]
          simp only [finalResults, hn]
        have hnd := broadcast_keys_nodup w iw maxLen size chunkSize metadata stream witnesses store wr
          cl hcl
        rw [hfinal, hrem1]
        refine ⟨?_, ?_, ?_, ?_⟩
        · intro _
          rw [hlast]
          rfl
        · intro p hp
          exact List.count_eq_one_of_mem (cleanup_nodup _ hnd) ((mem_cleanup p _).mpr hp)
        · intro p hp
          exact List.count_eq_zero_of_not_mem (fun h => hp ((mem_cleanup p _).mp h))
        · intro p hok hmem
          obtain ⟨b, e, hbe⟩ := (mem_cleanup p _).mp hmem
          have hl := lookup_of_mem p _ _ hnd hbe
          rw [broadcast_lookup w iw maxLen size chunkSize metadata stream witnesses store wr p cl hcl]
            at hl
          obtain ⟨j, hj, hjc⟩ := chain_error_origin _ _ _ _ _ hl
          have hjmem : j ∈ (broadcast w iw maxLen size chunkSize metadata stream witnesses store
              wr).calls.map (fun c => c.index) := by
            rw [broadcast_indices, List.mem_range]
            omega
          obtain ⟨c, hc, hcj⟩ := List.mem_map.mp hjmem
          have hlc := broadcast_lookup w iw maxLen size chunkSize metadata stream witnesses store wr p
            c hc
          rw [hcj, hjc] at hlc
          have := hok c hc _ (mem_of_lookup p _ _ hlc) rfl
          simp at this

end Cleanup


/-! ## The claims at concrete inputs -/

/-- At `Size = 10`, `ChunkSize = 4`, peers `0` and `1` throughout, the write of chunk 2
to peer `1` failing: the writes attempted to peer `1` are those of chunks 0, 1
and 2, its result for chunk 3 is the same error without a write, and peer `0`
is written all four chunks. -/
theorem write_sequence_two_peers :
    (writesTo 1 (broadcast 32 64 maxLen64 10 4 [0] (List.range 10) none twoPeers (failsAt 1 2 7)).calls
        = List.range (2 + 1) ∧
      ∀ c ∈ (broadcast 32 64 maxLen64 10 4 [0] (List.range 10) none twoPeers (failsAt 1 2 7)).calls,
        2 < c.index → lookup 1 c.results = some ⟨false, some 7⟩) ∧
    writesTo 0 (broadcast 32 64 maxLen64 10 4 [0] (List.range 10) none twoPeers (failsAt 1 2 7)).calls
        = List.range 4 :=
  ⟨(write_sequence_of_present_peer 32 64 maxLen64 10 4 [0] (List.range 10) none twoPeers (failsAt 1 2 7) 1
      (by decide) (fun _ _ => by simp [twoPeers]) (by decide)).2.2.1 2 7 (by decide) (by decide) (by decide),
    (write_sequence_of_present_peer 32 64 maxLen64 10 4 [0] (List.range 10) none twoPeers (failsAt 1 2 7) 0
      (by decide) (fun _ _ => by simp [twoPeers]) (by decide)).2.1 (by decide)⟩

/-- C4 at `Size = 10`, `ChunkSize = 4`, peers `0` and `1`, witnesses `[1, 0]`
for the checksum: the exclude list is `[0, 1]` and no chunk is written to peer
`1`. -/
theorem C4_exclude_list_witness :
    excludeList (some [1, 0]) = [0, 1] ∧
    writesTo 1 (broadcast 32 64 maxLen64 10 4 [0] (List.range 10) (some [1, 0]) twoPeers allSucceed).calls
      = [] :=
  ⟨by decide,
    ((C4_exclude_list 32 64 maxLen64 10 4 [0] (List.range 10) (some [1, 0]) twoPeers allSucceed).2.2.2
      [1, 0] 1 rfl (by decide)).2⟩

/-- C5 at `Size = 10`, `ChunkSize = 4` (4 chunks) and a reader that delivers 5
bytes: the read of chunk 1 takes 4 bytes, the read of chunk 2 is short, and the
fan-out primitive was invoked for chunks 0 and 1 only. -/
theorem C5_read_failure_stops_dispatch_witness :
    (broadcast 32 64 maxLen64 10 4 [0] (List.range 5) none twoPeers allSucceed).failedAt = some 2 ∧
    (broadcast 32 64 maxLen64 10 4 [0] (List.range 5) none twoPeers allSucceed).calls.length = 2 ∧
    (broadcast 32 64 maxLen64 10 4 [0] (List.range 5) none twoPeers allSucceed).calls.map
      (fun c => c.index) = List.range 2 ∧
    (∀ c ∈ (broadcast 32 64 maxLen64 10 4 [0] (List.range 5) none twoPeers allSucceed).calls,
      c.index < 2) :=
  C5_read_failure_stops_dispatch 32 64 maxLen64 10 4 [0] (List.range 5) none twoPeers allSucceed
    4 2 (by decide) (by decide) (by decide) (by decide) (by decide) (by decide) (by decide)

/-- C6 at `Size = 10`, `ChunkSize = 4`, peers `0` and `1`, the write of chunk 2
to peer `1` failing: peer `1` is removed exactly once and peer `0` is not
removed. -/
theorem C6_cleanup_removes_witness :
    (broadcast 32 64 maxLen64 10 4 [0] (List.range 10) none twoPeers (failsAt 1 2 7)).removes.count 1 = 1 ∧
    (broadcast 32 64 maxLen64 10 4 [0] (List.range 10) none twoPeers (failsAt 1 2 7)).removes.count 0 = 0 :=
  ⟨(C6_cleanup_removes 32 64 maxLen64 10 4 [0] (List.range 10) none twoPeers (failsAt 1 2 7)
      (by decide)).2.1 1 ⟨false, 7, by decide⟩,
    (C6_cleanup_removes 32 64 maxLen64 10 4 [0] (List.range 10) none twoPeers (failsAt 1 2 7)
      (by decide)).2.2.1 0 (by
        rintro ⟨b, e, h⟩
        rw [show finalResults 32 64 10 4
            (broadcast 32 64 maxLen64 10 4 [0] (List.range 10) none twoPeers (failsAt 1 2 7))
          = [(0, ⟨true, none⟩), (1, ⟨false, some 7⟩)] from by decide] at h
        simp at h)⟩


/-! ## The keys of the result sets -/

section Keys

variable {P B E : Type} [LinearOrder P]

theorem mem_writesTo_broadcast (w iw maxLen size chunkSize : Nat) (metadata stream : List B)
    (witnesses : Option (List P)) (store : Nat → List P) (wr : P → Nat → Option E) (p : P)
    (i : Nat)
    (h : i ∈ writesTo p (broadcast w iw maxLen size chunkSize metadata stream witnesses store wr).calls) :
    ∃ s, chain (presentAt store (excludeList witnesses) p) (wr p) i = some s ∧ s.wrote = true := by
  rw [writesTo_broadcast] at h
  obtain ⟨j, -, hj⟩ := List.mem_filterMap.mp h
  unfold writeIndex at hj
  split at hj
  · rename_i s hs
    by_cases hw : s.wrote = true
    · simp only [hw, if_true, Option.some.injEq] at hj
      subst hj
      exact ⟨s, hs, hw⟩
    · simp [hw] at hj
  · simp at hj

/-- The keys of the result set of every fan-out call are the
members of the store at that call that are not excluded; so the keys of chunk
`i` are among those of chunk `i - 1` whenever every member of the store at the
call of chunk `i` was a member at the call of chunk `i - 1`; and a peer that is
not a key of the result set of chunk `i - 1` is not written chunk `i`. -/
theorem result_set_keys (w iw maxLen size chunkSize : Nat) (metadata stream : List B)
    (witnesses : Option (List P)) (store : Nat → List P) (wr : P → Nat → Option E) :
    (∀ c ∈ (broadcast w iw maxLen size chunkSize metadata stream witnesses store wr).calls,
      ∀ p, p ∈ keys c.results ↔ p ∈ store c.index ∧ p ∉ excludeList witnesses) ∧
    (∀ c ∈ (broadcast w iw maxLen size chunkSize metadata stream witnesses store wr).calls,
      ∀ d ∈ (broadcast w iw maxLen size chunkSize metadata stream witnesses store wr).calls,
        c.index = d.index + 1 → (∀ p, p ∈ store c.index → p ∈ store d.index) →
        ∀ p, p ∈ keys c.results → p ∈ keys d.results) ∧
    (∀ c ∈ (broadcast w iw maxLen size chunkSize metadata stream witnesses store wr).calls,
      ∀ d ∈ (broadcast w iw maxLen size chunkSize metadata stream witnesses store wr).calls,
        c.index = d.index + 1 → ∀ p, p ∉ keys d.results →
        c.index ∉ writesTo p
          (broadcast w iw maxLen size chunkSize metadata stream witnesses store wr).calls) := by
  have hkeys : ∀ c ∈ (broadcast w iw maxLen size chunkSize metadata stream witnesses store wr).calls,
      ∀ p, p ∈ keys c.results ↔ p ∈ store c.index ∧ p ∉ excludeList witnesses := by
    intro c hc p
    rw [broadcast_keys w iw maxLen size chunkSize metadata stream witnesses store wr c hc]
    simp [List.mem_filter, List.mem_dedup]
  refine ⟨hkeys, ?_, ?_⟩
  · intro c hc d hd _ hsub p hp
    obtain ⟨h1, h2⟩ := (hkeys c hc p).mp hp
    exact (hkeys d hd p).mpr ⟨hsub p h1, h2⟩
  · intro c hc d hd hcd p hp hmem
    obtain ⟨s, hs, hw⟩ := mem_writesTo_broadcast w iw maxLen size chunkSize metadata stream witnesses
      store wr p c.index hmem
    have hd1 := broadcast_lookup w iw maxLen size chunkSize metadata stream witnesses store wr p d hd
    rw [lookup_eq_none_of_not_mem_keys p d.results hp] at hd1
    rw [hcd, chain, ← hd1] at hs
    by_cases hpres : presentAt store (excludeList witnesses) p (d.index + 1) = true
    · simp only [hpres, if_true, Option.some.injEq] at hs
      rw [← hs] at hw
      simp at hw
    · simp [hpres] at hs

end Keys

/-- C9: at `Size = 10`, `ChunkSize = 4`, all writes succeeding, when peer `1`
joins the store between the fan-out calls of chunk 0 and chunk 1, it is a key of
the result set of chunk 1 and not of chunk 0, and chunks 2 and 3 are written to
it although it is absent from the result set of chunk 0 and was written neither
the metadata nor chunk 1. -/
theorem C9_late_peer_receives_later_chunks :
    (broadcast 32 64 maxLen64 10 4 [0] (List.range 10) none joinsAfterMetadata allSucceed).calls.map
        (fun c => (c.index, keys c.results))
      = [(0, [0]), (1, [0, 1]), (2, [0, 1]), (3, [0, 1])] ∧
    ¬ (∀ p ∈ keys (Apply (joinsAfterMetadata 1)
          (sendChunk allSucceed 1 (Apply (joinsAfterMetadata 0) (sendMetadata allSucceed) []))
          []),
        p ∈ keys (Apply (joinsAfterMetadata 0) (sendMetadata allSucceed) [])) ∧
    writesTo 1
        (broadcast 32 64 maxLen64 10 4 [0] (List.range 10) none joinsAfterMetadata allSucceed).calls
      = [2, 3] := by
  decide

/-! ## Inputs at which the code departs from the claims -/

/-- C3: at `Size = 10`, `ChunkSize = 4`, peers `0` and `1` in the store at the
fan-out call of the metadata, no exclusions, the metadata write to peer `1`
failing, and peer `1` missing from the store at the fan-out call of chunk 1 and
back from chunk 2 on: the writes attempted to peer `1` are those of the
metadata and of chunk 3; its pending result is the error for chunk 0, absent for
chunk 1, `nil` without a write for chunk 2 and `nil` after a write for chunk 3;
no read fails and no peer is removed. -/
theorem C3_rejoining_peer_skips_chunks :
    writesTo 1
        (broadcast 32 64 maxLen64 10 4 [0] (List.range 10) none leavesAtChunkOne
          (failsAt 1 0 7)).calls
      = [0, 3] ∧
    (broadcast 32 64 maxLen64 10 4 [0] (List.range 10) none leavesAtChunkOne
        (failsAt 1 0 7)).calls.map (fun c => (c.index, c.data, lookup 1 c.results))
      = [(0, [0], some ⟨true, some 7⟩), (1, [0, 1, 2, 3], none),
          (2, [4, 5, 6, 7], some ⟨false, none⟩), (3, [8, 9], some ⟨true, none⟩)] ∧
    (broadcast 32 64 maxLen64 10 4 [0] (List.range 10) none leavesAtChunkOne
        (failsAt 1 0 7)).failedAt = none ∧
    (broadcast 32 64 maxLen64 10 4 [0] (List.range 10) none leavesAtChunkOne
        (failsAt 1 0 7)).removes = [] := by
  decide

/-- C1: with 32-bit sizes, `Size = 4294967295` and `ChunkSize = 65536` give the
chunk count 1, the sum `Size + ChunkSize - 1` wrapping around to 65534, while
`ceil(Size / ChunkSize) + 1` is 65537; and `Size = ChunkSize = 4294967295`
gives 1, not 2. -/
theorem C1_chunk_count_wraps :
    chunks 32 64 4294967295 65536 = some 1 ∧
    uadd 32 4294967295 65536 = 65535 ∧
    usub 32 (uadd 32 4294967295 65536) 1 = 65534 ∧
    ceilDiv 4294967295 65536 + 1 = 65537 ∧
    chunks 32 64 4294967295 4294967295 = some 1 := by
  decide

/-- C2: with 32-bit sizes, `Size = 4294967295` and `ChunkSize = 65536`, the
loop allocates no buffer whatever the reader delivers: the only fan-out call is
that of the metadata, no read fails, `leftover` is still the artifact size and
the artifact is closed. -/
theorem C2_no_buffer_after_wrap (stream : List Nat) :
    (broadcast 32 64 maxLen64 4294967295 65536 [0] stream none twoPeers allSucceed).calls.map
        (fun c => (c.index, c.data)) = [(0, [0])] ∧
    (broadcast 32 64 maxLen64 4294967295 65536 [0] stream none twoPeers allSucceed).failedAt = none ∧
    (broadcast 32 64 maxLen64 4294967295 65536 [0] stream none twoPeers allSucceed).leftover
      = 4294967295 ∧
    (broadcast 32 64 maxLen64 4294967295 65536 [0] stream none twoPeers allSucceed).terminal
      = [Terminal.Close] := by
  have h : chunks 32 64 4294967295 65536 = some 1 := by decide
  rw [broadcast_of_pos 32 64 maxLen64 4294967295 65536 [0] stream none twoPeers allSucceed 1 h
    (by decide) (by decide)]
  simp [loop]

/-- C7: at `Size = 10`, `ChunkSize = 4`, a reader that delivers 5 bytes and the
write of the metadata to peer `1` failing, the read of chunk 2 fails; the last
result set produced, that of chunk 1, holds an error for peer `1`, and no peer
is removed. -/
theorem C7_abort_skips_cleanup :
    (broadcast 32 64 maxLen64 10 4 [0] (List.range 5) none twoPeers (failsAt 1 0 7)).failedAt = some 2 ∧
    (broadcast 32 64 maxLen64 10 4 [0] (List.range 5) none twoPeers (failsAt 1 0 7)).calls.getLast?.map
        (fun c => (c.index, c.results))
      = some (1, [(0, ⟨true, none⟩), (1, ⟨false, some 7⟩)]) ∧
    (broadcast 32 64 maxLen64 10 4 [0] (List.range 5) none twoPeers (failsAt 1 0 7)).removes = [] ∧
    (broadcast 32 64 maxLen64 10 4 [0] (List.range 5) none twoPeers (failsAt 1 0 7)).terminal
      = [Terminal.Disconnect] := by
  decide

/-- C8: with 32-bit sizes, `Size = 4294967295` and `ChunkSize = 1`, the chunk
count is 0: the metadata is fanned out, the assignment to `errors[0]` is out of
range, and the invocation ends without a read failure and without a terminal
call on the artifact. -/
theorem C8_no_terminal_call_on_fault (stream : List Nat) :
    (broadcast 32 64 maxLen64 4294967295 1 [0] stream none twoPeers allSucceed).terminal = [] ∧
    (broadcast 32 64 maxLen64 4294967295 1 [0] stream none twoPeers allSucceed).failedAt = none ∧
    (broadcast 32 64 maxLen64 4294967295 1 [0] stream none twoPeers allSucceed).fault = true ∧
    (broadcast 32 64 maxLen64 4294967295 1 [0] stream none twoPeers allSucceed).calls.map
      (fun c => c.index) = [0] := by
  have h : chunks 32 64 4294967295 1 = some 0 := by decide
  have h3 : ¬ ((maxLen64 : Int) < 0) := by omega
  simp [broadcast, h, h3]

/-- C10: with 32-bit sizes, `Size = 4294967295` and `ChunkSize = 1`, the sum
`Size / ChunkSize + 1` wraps around and the chunk count is 0, whatever the
width of `int`; the slice `errors` has length 0, the assignment to `errors[0]`
is out of range and the invocation ends in a panic. -/
theorem C10_chunk_count_zero (stream : List Nat) :
    uadd 32 (4294967295 / 1) 1 = 0 ∧
    chunks 32 64 4294967295 1 = some 0 ∧
    chunks 32 32 4294967295 1 = some 0 ∧
    (broadcast 32 64 maxLen64 4294967295 1 [0] stream none twoPeers allSucceed).errors = [] ∧
    (broadcast 32 64 maxLen64 4294967295 1 [0] stream none twoPeers allSucceed).fault = true := by
  have h : chunks 32 64 4294967295 1 = some 0 := by decide
  have h3 : ¬ ((maxLen64 : Int) < 0) := by omega
  refine ⟨by decide, h, by decide, ?_, ?_⟩ <;> simp [broadcast, h, h3]


/-! ## The chunk count -/

theorem ceilDiv_eq (a b : Nat) (hb : 0 < b) : (a + b - 1) / b = ceilDiv a b := by
  unfold ceilDiv
  have h1 := Nat.div_add_mod a b
  have h2 := Nat.mod_lt a hb
  split
  · rename_i h0
    apply Nat.div_eq_of_lt_le
    · rw [h0, Nat.add_zero] at h1
      rw [Nat.mul_comm]
      omega
    · rw [h0, Nat.add_zero] at h1
      rw [Nat.succ_mul, Nat.mul_comm]
      omega
  · rename_i h0
    apply Nat.div_eq_of_lt_le
    · rw [Nat.add_mul, Nat.mul_comm, Nat.one_mul]
      omega
    · rw [Nat.succ_mul, Nat.add_mul, Nat.mul_comm, Nat.one_mul]
      omega

/-- The sum `Size + ChunkSize - 1` in unsigned `w`-bit arithmetic, when it does
not wrap around. -/
theorem usub_uadd_one (w size chunkSize : Nat) (hcs : 0 < chunkSize)
    (hsum : size + chunkSize ≤ 2 ^ w) :
    usub w (uadd w size chunkSize) 1 = size + chunkSize - 1 := by
  unfold usub uadd
  have hm : 0 < 2 ^ w := Nat.two_pow_pos w
  generalize 2 ^ w = m at hsum hm
  rcases Nat.lt_or_ge (size + chunkSize) m with hlt | hge
  · have h1 : 1 % m = 1 := Nat.mod_eq_of_lt (by omega)
    rw [Nat.mod_eq_of_lt hlt, h1]
    have h2 : size + chunkSize + (m - 1) = (size + chunkSize - 1) + m := by omega
    rw [h2, Nat.add_mod_right]
    exact Nat.mod_eq_of_lt (by omega)
  · have heq : size + chunkSize = m := by omega
    rw [heq, Nat.mod_self, Nat.zero_add]
    rcases Nat.lt_or_ge 1 m with h1 | h1
    · rw [Nat.mod_eq_of_lt h1]
      rw [Nat.mod_eq_of_lt (by omega)]
    · have hm1 : m = 1 := by omega
      subst hm1
      simp

theorem toInt_of_lt (w iw x : Nat) (hx : x < 2 ^ w) (hiw : w < iw) : toInt iw x = (x : Int) := by
  unfold toInt
  have h1 : 2 ^ w ≤ 2 ^ (iw - 1) := Nat.pow_le_pow_right (by decide) (by omega)
  have h2 : 2 ^ (iw - 1) ≤ 2 ^ iw := Nat.pow_le_pow_right (by decide) (by omega)
  have h3 : x % 2 ^ iw = x := Nat.mod_eq_of_lt (by omega)
  rw [h3]
  rw [if_pos (by omega)]

/-- Without wrap-around the chunk count of `broadcast` is
`ceil(Size / ChunkSize) + 1`. -/
theorem chunks_eq_ceilDiv (w iw size chunkSize : Nat) (hcs : 0 < chunkSize)
    (hsum : size + chunkSize ≤ 2 ^ w) (hq : ceilDiv size chunkSize + 1 < 2 ^ w)
    (hiw : w < iw) :
    chunks w iw size chunkSize = some ((ceilDiv size chunkSize + 1 : Nat) : Int) := by
  unfold chunks
  rw [usub_uadd_one w size chunkSize hcs hsum]
  have h0 : ¬ chunkSize = 0 := by omega
  simp only [udiv, h0, if_false, Option.map_some', Option.some.injEq]
  rw [ceilDiv_eq size chunkSize hcs]
  have h1 : uadd w (ceilDiv size chunkSize) 1 = ceilDiv size chunkSize + 1 :=
    Nat.mod_eq_of_lt hq
  rw [h1]
  exact toInt_of_lt w iw _ hq hiw

/-- For every width, an artifact of the largest size and chunks of one byte
give the chunk count 0. -/
theorem chunks_largest_size_unit_chunk (w iw : Nat) : chunks w iw (2 ^ w - 1) 1 = some 0 := by
  have hm : 0 < 2 ^ w := Nat.two_pow_pos w
  have h1 : usub w (uadd w (2 ^ w - 1) 1) 1 = 2 ^ w - 1 := by
    rw [usub_uadd_one w (2 ^ w - 1) 1 (by decide) (by omega)]
    omega
  have h2 : uadd w ((2 ^ w - 1) / 1) 1 = 0 := by
    unfold uadd
    rw [Nat.div_one]
    have : 2 ^ w - 1 + 1 = 2 ^ w := by omega
    rw [this, Nat.mod_self]
  unfold chunks
  rw [h1]
  simp only [udiv, one_ne_zero, if_false, Option.map_some', h2]
  simp [toInt]

/-- For every width, an artifact of the largest size and a chunk size of two or
more give the chunk count 1: no data chunk is planned. -/
theorem chunks_largest_size_wraps (w iw chunkSize : Nat) (h2 : 2 ≤ chunkSize)
    (hcs : chunkSize < 2 ^ w) (hiw : 2 ≤ iw) :
    chunks w iw (2 ^ w - 1) chunkSize = some 1 := by
  have hm : 0 < 2 ^ w := Nat.two_pow_pos w
  have hw : 2 ≤ w := by
    rcases Nat.lt_or_ge w 2 with h | h
    · interval_cases w <;> omega
    · exact h
  have hm4 : 4 ≤ 2 ^ w := by
    calc 4 = 2 ^ 2 := by norm_num
      _ ≤ 2 ^ w := Nat.pow_le_pow_right (by decide) hw
  have h1 : uadd w (2 ^ w - 1) chunkSize = chunkSize - 1 := by
    unfold uadd
    have : 2 ^ w - 1 + chunkSize = (chunkSize - 1) + 2 ^ w := by omega
    rw [this, Nat.add_mod_right]
    exact Nat.mod_eq_of_lt (by omega)
  have h3 : usub w (chunkSize - 1) 1 = chunkSize - 2 := by
    unfold usub
    rw [Nat.mod_eq_of_lt (by omega : 1 < 2 ^ w)]
    have : chunkSize - 1 + (2 ^ w - 1) = (chunkSize - 2) + 2 ^ w := by omega
    rw [this, Nat.add_mod_right]
    exact Nat.mod_eq_of_lt (by omega)
  have h4 : (chunkSize - 2) / chunkSize = 0 := Nat.div_eq_of_lt (by omega)
  have h5 : uadd w 0 1 = 1 := by
    unfold uadd
    exact Nat.mod_eq_of_lt (by omega)
  have h0 : ¬ chunkSize = 0 := by omega
  have h6 : (1 : Nat) < 2 ^ (iw - 1) := by
    calc 1 < 2 ^ 1 := by norm_num
      _ ≤ 2 ^ (iw - 1) := Nat.pow_le_pow_right (by decide) (by omega)
  have h7 : (1 : Nat) % 2 ^ iw = 1 := by
    apply Nat.mod_eq_of_lt
    calc 1 < 2 ^ 1 := by norm_num
      _ ≤ 2 ^ iw := Nat.pow_le_pow_right (by decide) (by omega)
  unfold chunks
  rw [h1, h3]
  simp only [udiv, h0, if_false, Option.map_some', h4, h5]
  unfold toInt
  rw [h7, if_pos h6]
  rfl


/-- The chunk count is at least 1 for every size and every positive chunk size
other than the largest size with chunks of one byte, when `int` is wider than
the sizes. -/
theorem chunks_pos (w iw size chunkSize : Nat) (hcs : 0 < chunkSize) (hsize : size < 2 ^ w)
    (hcsw : chunkSize < 2 ^ w) (hiw : w < iw) (hne : ¬ (size = 2 ^ w - 1 ∧ chunkSize = 1)) :
    ∃ n : Int, chunks w iw size chunkSize = some n ∧ 1 ≤ n := by
  have hm : 0 < 2 ^ w := Nat.two_pow_pos w
  have hx : usub w (uadd w size chunkSize) 1 < 2 ^ w := Nat.mod_lt _ hm
  have h0 : ¬ chunkSize = 0 := by omega
  have hq : usub w (uadd w size chunkSize) 1 / chunkSize + 1 < 2 ^ w := by
    rcases Nat.lt_or_ge chunkSize 2 with h | h
    · have h1 : chunkSize = 1 := by omega
      subst h1
      rw [usub_uadd_one w size 1 (by decide) (by omega), Nat.div_one]
      omega
    · have h1 : usub w (uadd w size chunkSize) 1 / chunkSize
          ≤ usub w (uadd w size chunkSize) 1 / 2 :=
        Nat.div_le_div_left h (by decide)
      omega
  refine ⟨((usub w (uadd w size chunkSize) 1 / chunkSize + 1 : Nat) : Int), ?_,
    by exact_mod_cast Nat.succ_le_succ (Nat.zero_le _)⟩
  unfold chunks
  simp only [udiv, h0, if_false, Option.map_some', Option.some.injEq]
  have h2 : uadd w (usub w (uadd w size chunkSize) 1 / chunkSize) 1
      = usub w (uadd w size chunkSize) 1 / chunkSize + 1 := Nat.mod_eq_of_lt hq
  rw [h2]
  exact toInt_of_lt w iw _ hq hiw

/-! ## Terminal calls and faults -/

section Terminal

variable {P B E : Type} [LinearOrder P]

/-- An invocation faults exactly when the chunk size is zero, the chunk count
is not positive or the slice `errors` cannot be allocated. -/
theorem broadcast_fault_iff (w iw maxLen size chunkSize : Nat) (metadata stream : List B)
    (witnesses : Option (List P)) (store : Nat → List P) (wr : P → Nat → Option E) :
    (broadcast w iw maxLen size chunkSize metadata stream witnesses store wr).fault = true ↔
      ∀ n : Int, chunks w iw size chunkSize = some n → n ≤ 0 ∨ (maxLen : Int) < n := by
  cases hn : chunks w iw size chunkSize with
  | none => simp [broadcast, hn]
  | some n =>
    by_cases h1 : n < 0 ∨ (maxLen : Int) < n
    · simp only [broadcast, hn, h1, if_true, Option.some.injEq, forall_eq', true_iff]
      omega
    · by_cases h2 : n = 0
      · have h3 : ¬ ((maxLen : Int) < 0) := by omega
        simp [broadcast, hn, h2, h3]
      · have hpos : 0 < n := by omega
        have hmax : n ≤ (maxLen : Int) := by omega
        rw [broadcast_of_pos w iw maxLen size chunkSize metadata stream witnesses store wr n hn hpos hmax]
        simp only [Option.some.injEq, forall_eq']
        split
        · simp only [Bool.false_eq_true, false_iff]
          omega
        · simp only [Bool.false_eq_true, false_iff]
          omega

/-- An invocation that does not fault makes exactly one terminal call:
`Disconnect` when a read failed and `Close` otherwise, whatever the outcomes of
the writes; an invocation that faults makes none. -/
theorem broadcast_terminal (w iw maxLen size chunkSize : Nat) (metadata stream : List B)
    (witnesses : Option (List P)) (store : Nat → List P) (wr : P → Nat → Option E) :
    ((broadcast w iw maxLen size chunkSize metadata stream witnesses store wr).fault = false →
      ((broadcast w iw maxLen size chunkSize metadata stream witnesses store wr).failedAt = none →
        (broadcast w iw maxLen size chunkSize metadata stream witnesses store wr).terminal
          = [Terminal.Close]) ∧
      (∀ k, (broadcast w iw maxLen size chunkSize metadata stream witnesses store wr).failedAt = some k →
        (broadcast w iw maxLen size chunkSize metadata stream witnesses store wr).terminal
          = [Terminal.Disconnect])) ∧
    ((broadcast w iw maxLen size chunkSize metadata stream witnesses store wr).fault = true →
      (broadcast w iw maxLen size chunkSize metadata stream witnesses store wr).terminal = []) := by
  cases hn : chunks w iw size chunkSize with
  | none => simp [broadcast, hn]
  | some n =>
    by_cases h1 : n < 0 ∨ (maxLen : Int) < n
    · simp [broadcast, hn, h1]
    · by_cases h2 : n = 0
      · have h3 : ¬ ((maxLen : Int) < 0) := by omega
        simp [broadcast, hn, h2, h3]
      · have hpos : 0 < n := by omega
        have hmax : n ≤ (maxLen : Int) := by omega
        rw [broadcast_of_pos w iw maxLen size chunkSize metadata stream witnesses store wr n hn hpos hmax]
        simp only
        split <;> simp

end Terminal


/-! ## The buffers of the chunk loop -/

theorem ceilDiv_eq_zero (a b : Nat) (h : ceilDiv a b = 0) : a = 0 := by
  unfold ceilDiv at h
  split at h
  · rename_i h0
    have h1 := Nat.div_add_mod a b
    rw [h, h0] at h1
    omega
  · exact absurd h (Nat.succ_ne_zero _)

theorem ceilDiv_of_lt (a b : Nat) (ha : 0 < a) (hab : a < b) : ceilDiv a b = 1 := by
  unfold ceilDiv
  rw [Nat.mod_eq_of_lt hab, Nat.div_eq_of_lt hab]
  have : ¬ a = 0 := by omega
  simp [this]

theorem ceilDiv_sub (a b : Nat) (hb : 0 < b) (hab : b ≤ a) :
    ceilDiv a b = ceilDiv (a - b) b + 1 := by
  rw [← ceilDiv_eq a b hb, ← ceilDiv_eq (a - b) b hb]
  have h1 : a + b - 1 = (a - b + b - 1) + b := by omega
  rw [h1, Nat.add_div_right _ hb]

theorem bufferLengths_zero (b : Nat) : bufferLengths 0 b = [] := by
  simp [bufferLengths]

theorem bufferLengths_of_lt (a b : Nat) (ha : 0 < a) (hab : a < b) : bufferLengths a b = [a] := by
  unfold bufferLengths
  rw [Nat.mod_eq_of_lt hab, Nat.div_eq_of_lt hab]
  have : ¬ a = 0 := by omega
  simp [this]

theorem bufferLengths_sub (a b : Nat) (hb : 0 < b) (hab : b ≤ a) :
    bufferLengths a b = b :: bufferLengths (a - b) b := by
  unfold bufferLengths
  have h1 : a / b = (a - b) / b + 1 := by
    have h2 : a = (a - b) + b := by omega
    conv_lhs => rw [h2]
    exact Nat.add_div_right _ hb
  have h3 : a % b = (a - b) % b := Nat.mod_eq_sub_mod hab
  rw [h1, h3, List.replicate_succ, List.cons_append]

theorem ReadFull_some {B : Type} (stream data rest : List B) (n : Nat)
    (h : ReadFull stream n = some (data, rest)) :
    n ≤ stream.length ∧ data = stream.take n ∧ rest = stream.drop n := by
  unfold ReadFull at h
  split at h
  · rename_i hle
    simp only [Option.some.injEq, Prod.mk.injEq] at h
    exact ⟨hle, h.1.symm, h.2.symm⟩
  · simp at h

/-- When the loop is entered with as many iterations as `leftover` bytes need
and no read fails, the buffers are the successive slices of the reader's bytes:
full chunks followed by the rest, `leftover` bytes in all, and `leftover` is 0
when the loop ends. -/
theorem loop_buffers {P B E : Type} [DecidableEq P] (chunkSize : Nat) (hcs : 0 < chunkSize)
    (exclude : List P) (store : Nat → List P) (wr : P → Nat → Option E) :
    ∀ (n i leftover : Nat) (stream : List B) (previous : List (P × Pending E)),
      n = ceilDiv leftover chunkSize →
      (loop chunkSize exclude store wr n i leftover stream previous).failedAt = none →
      (loop chunkSize exclude store wr n i leftover stream previous).leftover = 0 ∧
      ((loop chunkSize exclude store wr n i leftover stream previous).calls.map
          (fun c => c.data)).flatten = stream.take leftover ∧
      (loop chunkSize exclude store wr n i leftover stream previous).calls.map
          (fun c => c.data.length) = bufferLengths leftover chunkSize ∧
      leftover ≤ stream.length := by
  intro n
  induction n with
  | zero =>
    intro i leftover stream previous hn _
    have h0 := ceilDiv_eq_zero leftover chunkSize hn.symm
    subst h0
    simp [loop, bufferLengths_zero]
  | succ n ih =>
    intro i leftover stream previous hn hf
    have hpos : 0 < leftover := by
      rcases Nat.eq_zero_or_pos leftover with h | h
      · subst h
        simp [ceilDiv] at hn
      · exact h
    unfold loop at hf ⊢
    simp only at hf ⊢
    split at hf
    · simp at hf
    · rename_i data stream1 hread
      by_cases hlt : leftover < chunkSize
      · simp only [hlt, if_true] at hread hf ⊢
        obtain ⟨hle, hdata, hrest⟩ := ReadFull_some _ _ _ _ hread
        have hn0 : n = 0 := by
          rw [ceilDiv_of_lt leftover chunkSize hpos hlt] at hn
          omega
        subst hn0
        subst hdata
        simp [loop, bufferLengths_of_lt leftover chunkSize hpos hlt, hle]
      · simp only [hlt, if_false] at hread hf ⊢
        obtain ⟨hle, hdata, hrest⟩ := ReadFull_some _ _ _ _ hread
        have hn1 : n = ceilDiv (leftover - chunkSize) chunkSize := by
          rw [ceilDiv_sub leftover chunkSize hcs (by omega)] at hn
          omega
        obtain ⟨h1, h2, h3, h4⟩ := ih (i + 1) (leftover - chunkSize) stream1
          (Apply (store i) (sendChunk wr i previous) exclude) hn1 hf
        subst hdata
        subst hrest
        rw [List.length_drop] at h4
        refine ⟨h1, ?_, ?_, by omega⟩
        · simp only [List.map_cons, List.flatten_cons, h2]
          have h5 : leftover = chunkSize + (leftover - chunkSize) := by omega
          conv_rhs => rw [h5, List.take_add]
        · simp only [List.map_cons, h3, List.length_take]
          rw [bufferLengths_sub leftover chunkSize hcs (by omega), Nat.min_eq_left hle]


/-- Without wrap-around in the chunk count, a broadcast in which no read fails
cuts the artifact into the buffers of the chunk plan: the data of the fan-out
calls after the first are the successive slices of the first `size` bytes of
the reader, full chunks followed by the rest, and `leftover` ends at 0. -/
theorem broadcast_buffers {P B E : Type} [LinearOrder P] (w iw maxLen size chunkSize : Nat)
    (metadata stream : List B) (witnesses : Option (List P)) (store : Nat → List P)
    (wr : P → Nat → Option E) (hcs : 0 < chunkSize) (hsum : size + chunkSize ≤ 2 ^ w)
    (hq : ceilDiv size chunkSize + 1 < 2 ^ w) (hiw : w < iw)
    (hmax : ceilDiv size chunkSize + 1 ≤ maxLen)
    (hreads : (broadcast w iw maxLen size chunkSize metadata stream witnesses store wr).failedAt = none) :
    (broadcast w iw maxLen size chunkSize metadata stream witnesses store wr).leftover = 0 ∧
    (((broadcast w iw maxLen size chunkSize metadata stream witnesses store wr).calls.drop 1).map
        (fun c => c.data)).flatten = stream.take size ∧
    ((broadcast w iw maxLen size chunkSize metadata stream witnesses store wr).calls.drop 1).map
        (fun c => c.data.length) = bufferLengths size chunkSize ∧
    size ≤ stream.length := by
  have hn := chunks_eq_ceilDiv w iw size chunkSize hcs hsum hq hiw
  have hpos : (0 : Int) < ((ceilDiv size chunkSize + 1 : Nat) : Int) := by
    exact_mod_cast Nat.succ_pos _
  have hmax1 : ((ceilDiv size chunkSize + 1 : Nat) : Int) ≤ (maxLen : Int) := by
    exact_mod_cast hmax
  rw [broadcast_of_pos w iw maxLen size chunkSize metadata stream witnesses store wr _ hn hpos
    hmax1]
    at hreads ⊢
  simp only [Int.toNat_ofNat, Nat.add_sub_cancel] at hreads ⊢
  have hl := loop_buffers chunkSize hcs (excludeList witnesses) store wr
    (ceilDiv size chunkSize) 1 size stream
    (Apply (store 0) (sendMetadata wr) (excludeList witnesses)) rfl
  split at hreads
  · simp at hreads
  · rename_i hk
    simpa using hl hk

end Revolver
